import Mathlib

set_option autoImplicit false

/-
Verification of the ekam resource-lifetime and process-execution core.

The definitions below are shallow embeddings of:
  * src/base/OwnedPtr.h  — the Refcount block, SmartPtr (shared handle),
    WeakPtr (weak reference), and the owned containers OwnedPtrVector,
    OwnedPtrDeque and OwnedPtrMap;
  * src/Subprocess.cpp — capture configuration, argument assembly, the
    child exec branch, and the completion state machine
    (pipeDone / done / maybeCallFinalCallback).

C++ ints become Lean Int (with guards making overflow irrelevant for the
counting discipline), raw pointers become `Option Nat` (none = NULL, a
Nat identifying the pointee), and fatal assertion failures (dereferencing
an empty handle) become `Option`-valued steps returning `none`.
-/

/- ======================================================================
   Process lifecycle states (Subprocess.h states, used by Subprocess.cpp)
   ====================================================================== -/

/-- Lifecycle states of a Subprocess: NOT_STARTED, RUNNING, EXITED, SIGNALED. -/
inductive PState
  | NOT_STARTED
  | RUNNING
  | EXITED
  | SIGNALED
deriving DecidableEq

/-- Which terminal notification the event manager delivered: the
CallbackWrapper calls done(EXITED, exitCode) or done(SIGNALED, signalNumber). -/
inductive TermTag
  | exited
  | signaled
deriving DecidableEq

/-- The state stored by done for each terminal notification. -/
def TermTag.toState : TermTag → PState
  | TermTag.exited => PState.EXITED
  | TermTag.signaled => PState.SIGNALED

/-- Whether a state is terminal (EXITED or SIGNALED). -/
def PState.isTerminal : PState → Bool
  | PState.EXITED => true
  | PState.SIGNALED => true
  | _ => false

/- ======================================================================
   Capture configuration (Subprocess::captureStdout / captureStderr /
   captureStdoutAndStderr, Subprocess.cpp lines 98-115)
   ====================================================================== -/

/-- Which of the three pipe members of Subprocess are currently allocated
(non-null).  `true` means the OwnedPtr<Pipe> member holds a pipe. -/
structure CaptureState where
  stdoutPipe : Bool
  stderrPipe : Bool
  stdoutAndStderrPipe : Bool
deriving DecidableEq

/-- Subprocess constructor state: all pipe members empty. -/
def CaptureState.init : CaptureState :=
  { stdoutPipe := false, stderrPipe := false, stdoutAndStderrPipe := false }

/-- captureStdout: allocates stdoutPipe, hands the read end to the caller,
and clears stdoutAndStderrPipe.  stderrPipe is left untouched. -/
def CaptureState.captureStdout (c : CaptureState) : CaptureState :=
  { stdoutPipe := true, stderrPipe := c.stderrPipe, stdoutAndStderrPipe := false }

/-- captureStderr: allocates stderrPipe, hands the read end to the caller,
and clears stdoutAndStderrPipe.  stdoutPipe is left untouched. -/
def CaptureState.captureStderr (c : CaptureState) : CaptureState :=
  { stdoutPipe := c.stdoutPipe, stderrPipe := true, stdoutAndStderrPipe := false }

/-- captureStdoutAndStderr: allocates stdoutAndStderrPipe and clears both
stdoutPipe and stderrPipe. -/
def CaptureState.captureStdoutAndStderr (_c : CaptureState) : CaptureState :=
  { stdoutPipe := false, stderrPipe := false, stdoutAndStderrPipe := true }

/-- A capture-configuration call. -/
inductive CapOp
  | stdout
  | stderr
  | both
deriving DecidableEq

/-- Apply one capture-configuration call. -/
def CaptureState.applyOp (c : CaptureState) : CapOp → CaptureState
  | CapOp.stdout => c.captureStdout
  | CapOp.stderr => c.captureStderr
  | CapOp.both => c.captureStdoutAndStderr

/-- Apply a sequence of capture-configuration calls, left to right. -/
def CaptureState.runOps (c : CaptureState) : List CapOp → CaptureState
  | [] => c
  | op :: ops => (c.applyOp op).runOps ops

/-- Number of allocated pipe bindings.  This equals both the number of
active capture modes and the value of pipeCount after start's parent
branch executed its three `if (pipe != NULL) { ...; ++pipeCount; }`
blocks (Subprocess.cpp lines 161-172). -/
def CaptureState.activeCount (c : CaptureState) : Nat :=
  (if c.stdoutPipe then 1 else 0) + (if c.stderrPipe then 1 else 0) +
    (if c.stdoutAndStderrPipe then 1 else 0)

/- ======================================================================
   Argument assembly (Subprocess::addArgument, lines 77-96) and the
   child branch of start (lines 123-158)
   ====================================================================== -/

/-- The argument-related fields of Subprocess: args, executableName,
doPathLookup and the diskRefs list (file paths retained so the backing
files outlive the child). -/
structure ArgState where
  args : List String
  executableName : String
  doPathLookup : Bool
  diskRefs : List String
deriving DecidableEq

/-- Subprocess constructor: doPathLookup(false), everything else empty. -/
def ArgState.init : ArgState :=
  { args := [], executableName := "", doPathLookup := false, diskRefs := [] }

/-- addArgument(const std::string&): if args is empty, records the argument
as executableName with doPathLookup = true; always appends to args. -/
def ArgState.addArgument (a : ArgState) (arg : String) : ArgState :=
  if a.args.isEmpty then
    { a with executableName := arg, doPathLookup := true, args := a.args ++ [arg] }
  else
    { a with args := a.args ++ [arg] }

/-- addArgument(File*, usage): the file is resolved to an on-disk path
(diskRef->path(), here `path`); if args is empty, executableName is set to
that path with doPathLookup = false; the path is appended to args and the
disk reference is retained in diskRefs (diskRefs.adoptBack). -/
def ArgState.addArgumentFile (a : ArgState) (path : String) : ArgState :=
  let a2 :=
    if a.args.isEmpty then
      { a with executableName := path, doPathLookup := false }
    else a
  { a2 with args := a2.args ++ [path], diskRefs := a2.diskRefs ++ [path] }

/-- Outcome of the child branch of start: either the process image was
replaced (via execvp when doPathLookup, via execv otherwise), or exec
returned and the child ran perror("exec"); exit(1). -/
inductive ChildResult
  | execPath (name : String) (argv : List String)
  | execExact (name : String) (argv : List String)
  | exitFailure (code : Int)
deriving DecidableEq

/-- The child branch of start (lines 149-158): exec via PATH lookup or
exact path according to doPathLookup; if the exec call fails the child
terminates with the fixed status 1. -/
def ArgState.childBranch (a : ArgState) (execSucceeds : Bool) : ChildResult :=
  if execSucceeds then
    if a.doPathLookup then ChildResult.execPath a.executableName a.args
    else ChildResult.execExact a.executableName a.args
  else
    ChildResult.exitFailure 1

/- ======================================================================
   Completion state machine (Subprocess::pipeDone / done /
   maybeCallFinalCallback, Subprocess.cpp lines 182-207)
   ====================================================================== -/

/-- The completion-relevant fields of a started Subprocess.
`finalCallback` records whether the manager still holds the completion
callback; `calls` is the externally observable log of callback
invocations (exited/signaled tag plus numeric value). -/
structure SubprocessState where
  state : PState
  pipeCount : Int
  exitStatusOrSignalNumber : Int
  pid : Int
  hasCanceler : Bool
  diskRefsCleared : Bool
  finalCallback : Bool
  calls : List (TermTag × Int)
deriving DecidableEq

/-- maybeCallFinalCallback: if pipeCount == 0 and the state is terminal,
invoke the callback with the stored value and clear the reference to it.
Invoking through an empty OwnedPtr (finalCallback already cleared) is a
fatal assertion failure, modelled as `none`. -/
def SubprocessState.maybeCallFinalCallback (s : SubprocessState) : Option SubprocessState :=
  if s.pipeCount = 0 then
    if s.state = PState.EXITED then
      if s.finalCallback then
        some { s with calls := s.calls ++ [(TermTag.exited, s.exitStatusOrSignalNumber)],
                      finalCallback := false }
      else none
    else if s.state = PState.SIGNALED then
      if s.finalCallback then
        some { s with calls := s.calls ++ [(TermTag.signaled, s.exitStatusOrSignalNumber)],
                      finalCallback := false }
      else none
    else some s
  else some s

/-- pipeDone: decrement pipeCount, then re-evaluate completion. -/
def SubprocessState.pipeDone (s : SubprocessState) : Option SubprocessState :=
  SubprocessState.maybeCallFinalCallback { s with pipeCount := s.pipeCount - 1 }

/-- done(state, n): store the terminal state and value, clear the
cancellation token, forget the pid, release the disk references, then
re-evaluate completion. -/
def SubprocessState.done (s : SubprocessState) (t : TermTag) (v : Int) : Option SubprocessState :=
  SubprocessState.maybeCallFinalCallback
    { s with state := t.toState, exitStatusOrSignalNumber := v,
             hasCanceler := false, pid := -1, diskRefsCleared := true }

/-- An asynchronous notification delivered to a started Subprocess:
a pipe-drain notification, or the process-exit notification. -/
inductive Ev
  | pipeDone
  | done (t : TermTag) (v : Int)
deriving DecidableEq

/-- Deliver one notification. -/
def SubprocessState.stepEv (s : SubprocessState) : Ev → Option SubprocessState
  | Ev.pipeDone => s.pipeDone
  | Ev.done t v => s.done t v

/-- Deliver a sequence of notifications, left to right. -/
def SubprocessState.runEvs (s : SubprocessState) : List Ev → Option SubprocessState
  | [] => some s
  | e :: es => (s.stepEv e).bind (fun s2 => s2.runEvs es)

/-- The parent branch of start with capture configuration `c`: state
becomes RUNNING, each configured pipe's write end is released and
pipeCount incremented, the completion callback is adopted, and the exit
watch (canceler) is registered for the forked pid. -/
def SubprocessState.start (c : CaptureState) (pid : Int) : SubprocessState :=
  { state := PState.RUNNING, pipeCount := (c.activeCount : Int),
    exitStatusOrSignalNumber := 0, pid := pid, hasCanceler := true,
    diskRefsCleared := false, finalCallback := true, calls := [] }

/-- The state of a started Subprocess with `n` configured pipes after `k`
pipe-drain notifications and, when `e`, the terminal notification
`(t, v)` have been processed.  Used to characterise every prefix of a run. -/
def SubprocessState.mid (n : Nat) (pid : Int) (t : TermTag) (v : Int) (k : Nat) (e : Bool) :
    SubprocessState :=
  { state := if e then t.toState else PState.RUNNING,
    pipeCount := (n : Int) - (k : Int),
    exitStatusOrSignalNumber := if e then v else 0,
    pid := if e then -1 else pid,
    hasCanceler := !e,
    diskRefsCleared := e,
    finalCallback := !(e && decide (k = n)),
    calls := if e && decide (k = n) then [(t, v)] else [] }

/- ======================================================================
   Refcount block (OwnedPtr.h lines 145-192) and the shared/weak handle
   discipline (SmartPtr lines 194-366, WeakPtr lines 368-428)
   ====================================================================== -/

/-- The heap-allocated counter pair: Refcount(): strong(1), weak(0). -/
structure Refcount where
  strong : Int
  weak : Int
deriving DecidableEq

/-- A freshly allocated block, as built when a SmartPtr consumes an
OwnedPtr: new Refcount() with strong = 1, weak = 0. -/
def Refcount.initBlock : Refcount := { strong := 1, weak := 0 }

/-- Refcount::dec on a live block: pre-decrement strong; if it reached
zero, delete the block when weak == 0 (result `none`) and report `true`
(the caller must destroy the object); otherwise report `false`. -/
def Refcount.decOp (b : Refcount) : Option Refcount × Bool :=
  if b.strong - 1 = 0 then
    ((if b.weak = 0 then none else some { strong := b.strong - 1, weak := b.weak }), true)
  else
    (some { strong := b.strong - 1, weak := b.weak }, false)

/-- Refcount::decWeak on a live block: pre-decrement weak; delete the
block (result `none`) when weak reached zero and strong == 0. -/
def Refcount.decWeakOp (b : Refcount) : Option Refcount :=
  if b.weak - 1 = 0 ∧ b.strong = 0 then none
  else some { strong := b.strong, weak := b.weak - 1 }

/-- Refcount::isLive: r != NULL and r->strong > 0. -/
def Refcount.isLive : Option Refcount → Bool
  | none => false
  | some b => decide (0 < b.strong)
/-- The single-object shared-ownership world, faithful to the handle
states the source can produce.  `block` is the refcount block (none once
deleted).  Handles referring to the block come in three kinds:

  * `nLive` object-bearing handles: SmartPtrs whose ptr is the object and
    whose refcount is the block (the initial share, copies of such
    handles, successful upgrades); each contributes 1 to `strong`.
  * `nZombie` null-pointer handles: SmartPtrs whose ptr is NULL but whose
    refcount is the block, produced by copy-constructing from a
    released-from handle (the copy constructor runs Refcount::inc
    unconditionally); each also contributes 1 to `strong`.
  * `nStale` released-from handles: after a successful SmartPtr::release
    the source nulls only ptr, never refcount (OwnedPtr.h lines 273-282),
    so the handle keeps its block pointer while its strong count has
    already been consumed by Refcount::release; such a handle contributes
    0 to `strong`, and destroying it runs Refcount::dec once more.
    `staleDrops` counts those extra decrements, each of which drives
    `strong` one below the count of live and zombie handles.

`objDestroys` counts executions of the object destructor (delete of a
non-null ptr); `exclusiveHolds` records that the OwnedPtr filled by a
successful release still holds the transferred pointer.  Weak references
stay collapsed into the block weak counter: each live WeakPtr contributes
exactly 1 and has no degenerate states. -/
structure World where
  block : Option Refcount
  nLive : Nat
  nZombie : Nat
  nStale : Nat
  staleDrops : Nat
  objAlive : Bool
  objDestroys : Nat
  exclusiveHolds : Bool
deriving DecidableEq

/-- An object just placed under shared ownership by consuming an
OwnedPtr: one object-bearing handle, fresh block. -/
def World.init : World :=
  { block := some Refcount.initBlock, nLive := 1, nZombie := 0, nStale := 0,
    staleDrops := 0, objAlive := true, objDestroys := 0, exclusiveHolds := false }

/-- The block strong counter (0 once the block is gone). -/
def World.strongVal (w : World) : Int :=
  match w.block with
  | none => 0
  | some b => b.strong

/-- The block weak counter (0 once the block is gone). -/
def World.weakVal (w : World) : Int :=
  match w.block with
  | none => 0
  | some b => b.weak

/-- SmartPtr::release(OwnedPtr* other) on an object-bearing handle:
Refcount::release succeeds iff strong == 1, in which case it runs dec
(bringing strong to 0 and deleting the block when weak == 0), the object
pointer is transferred into the OwnedPtr without being destroyed, and
only ptr is nulled — the handle keeps its refcount pointer and becomes a
released-from (stale) handle; otherwise release returns false and nothing
changes. -/
def World.releaseStep (w : World) : Bool × World :=
  match w.block with
  | none => (false, w)
  | some b =>
    if b.strong = 1 then
      (true, { w with block := (Refcount.decOp b).1,
                      nLive := w.nLive - 1, nStale := w.nStale + 1,
                      exclusiveHolds := true })
    else
      (false, w)

/-- WeakPtr::operator SmartPtr<U>: if Refcount::isLive(refcount) the
result handle is bound via reset(ptr, refcount), which runs Refcount::inc
and stores the weak reference ptr — the object pointer — so the result is
an object-bearing handle whether or not the object is still alive;
otherwise the result stays empty and nothing changes.  The Bool is
whether the resulting handle is non-empty. -/
def World.upgradeStep (w : World) : Bool × World :=
  if Refcount.isLive w.block then
    (true,
      { w with nLive := w.nLive + 1,
               block :=
          match w.block with
          | some b => some { strong := b.strong + 1, weak := b.weak }
          | none => none })
  else
    (false, w)

/-- The operations of the source on the handles of one shared object.
copyLive and dropLive are SmartPtr copy-construction and destruction (or
clear) on an object-bearing handle (Refcount::inc / Refcount::dec, the
latter deleting the object when it returns true); mkWeak, copyWeak and
dropWeak manage WeakPtrs (Refcount::incWeak / decWeak); upgrade converts
a weak reference; releaseX is SmartPtr::release into an OwnedPtr;
copyStale copy-constructs from a released-from handle (Refcount::inc on
the block it still points to, yielding a null-pointer handle); dropStale
destroys a released-from handle, running Refcount::dec a second time for
that handle — a use-after-free when the block is already gone, modelled
as no defined successor; dropZombie destroys a null-pointer handle (its
dec may report "destroy", but deleting its NULL ptr is a no-op);
dropExclusive destroys the OwnedPtr holding the transferred pointer,
deleting the object. -/
inductive ROp
  | copyLive
  | dropLive
  | mkWeak
  | copyWeak
  | dropWeak
  | upgrade
  | releaseX
  | copyStale
  | dropStale
  | dropZombie
  | dropExclusive
deriving DecidableEq

/-- One operation.  `none` means no handle is available to perform the
operation in this world, or the operation would read freed memory
(undefined behaviour). -/
def World.step (w : World) : ROp → Option World
  | ROp.copyLive =>
    match w.block with
    | some b =>
      if 1 ≤ w.nLive then
        some { w with block := some { strong := b.strong + 1, weak := b.weak },
                      nLive := w.nLive + 1 }
      else none
    | none => none
  | ROp.dropLive =>
    match w.block with
    | some b =>
      if 1 ≤ w.nLive then
        some { w with block := (Refcount.decOp b).1,
                      nLive := w.nLive - 1,
                      objAlive := if (Refcount.decOp b).2 then false else w.objAlive,
                      objDestroys :=
                        if (Refcount.decOp b).2 then w.objDestroys + 1 else w.objDestroys }
      else none
    | none => none
  | ROp.mkWeak =>
    match w.block with
    | some b =>
      if 1 ≤ w.nLive then
        some { w with block := some { strong := b.strong, weak := b.weak + 1 } }
      else none
    | none => none
  | ROp.copyWeak =>
    match w.block with
    | some b =>
      if 1 ≤ b.weak then
        some { w with block := some { strong := b.strong, weak := b.weak + 1 } }
      else none
    | none => none
  | ROp.dropWeak =>
    match w.block with
    | some b =>
      if 1 ≤ b.weak then some { w with block := Refcount.decWeakOp b }
      else none
    | none => none
  | ROp.upgrade =>
    match w.block with
    | some b =>
      if 1 ≤ b.weak then some (World.upgradeStep w).2
      else none
    | none => none
  | ROp.releaseX =>
    match w.block with
    | some _b =>
      if 1 ≤ w.nLive then some (World.releaseStep w).2
      else none
    | none => none
  | ROp.copyStale =>
    match w.block with
    | some b =>
      if 1 ≤ w.nStale then
        some { w with block := some { strong := b.strong + 1, weak := b.weak },
                      nZombie := w.nZombie + 1 }
      else none
    | none => none
  | ROp.dropStale =>
    match w.block with
    | some b =>
      if 1 ≤ w.nStale then
        some { w with block := (Refcount.decOp b).1,
                      nStale := w.nStale - 1, staleDrops := w.staleDrops + 1 }
      else none
    | none => none
  | ROp.dropZombie =>
    match w.block with
    | some b =>
      if 1 ≤ w.nZombie then
        some { w with block := (Refcount.decOp b).1, nZombie := w.nZombie - 1 }
      else none
    | none => none
  | ROp.dropExclusive =>
    if w.exclusiveHolds then
      some { w with exclusiveHolds := false, objAlive := false,
                    objDestroys := w.objDestroys + 1 }
    else none

/-- Run a sequence of operations, left to right. -/
def World.runOps (w : World) : List ROp → Option World
  | [] => some w
  | op :: ops => (w.step op).bind (fun w2 => w2.runOps ops)

/-- Worlds reachable from the initial shared-ownership world. -/
def World.Reachable (w : World) : Prop :=
  ∃ ops, World.runOps World.init ops = some w

/-- Worlds reachable from a given world. -/
def World.ReachFrom (w w2 : World) : Prop :=
  ∃ ops, World.runOps w ops = some w2

/-- Reachability restricted to sequences that never copy a released-from
handle — the discipline of not reusing a shared handle after releasing
from it. -/
def World.ReachableNC (w : World) : Prop :=
  ∃ ops, ROp.copyStale ∉ ops ∧ World.runOps World.init ops = some w

/-- Reachability from a given world without copying a released-from
handle. -/
def World.ReachFromNC (w w2 : World) : Prop :=
  ∃ ops, ROp.copyStale ∉ ops ∧ World.runOps w ops = some w2

/-- The world after constructing one weak reference from the initial
object-bearing handle: strong 1, weak 1. -/
def World.afterMkWeak : World :=
  { block := some { strong := 1, weak := 1 }, nLive := 1, nZombie := 0, nStale := 0,
    staleDrops := 0, objAlive := true, objDestroys := 0, exclusiveHolds := false }

/-- The inductive invariant of the no-stale-copy fragment: no zombie
handles; at most one release has happened, and after it no object-bearing
handle remains; an exclusive transfer implies a release happened; a live
block strong counter equals the object-bearing handles minus the extra
decrements of destroyed released-from handles; a freed block leaves no
object-bearing handle behind; and the object has been destroyed exactly
once when no object-bearing handle and no exclusive transfer remain, and
not at all otherwise. -/
def World.InvNC (w : World) : Prop :=
  w.nZombie = 0 ∧
  w.nStale + w.staleDrops ≤ 1 ∧
  (1 ≤ w.nStale + w.staleDrops → w.nLive = 0) ∧
  (w.exclusiveHolds = true → 1 ≤ w.nStale + w.staleDrops) ∧
  (∀ b, w.block = some b →
    b.strong = (w.nLive : Int) - (w.staleDrops : Int) ∧ 0 ≤ b.weak) ∧
  (w.block = none → w.nLive = 0) ∧
  ((w.nLive = 0 ∧ w.exclusiveHolds = false) → (w.objDestroys = 1 ∧ w.objAlive = false)) ∧
  (¬(w.nLive = 0 ∧ w.exclusiveHolds = false) → (w.objDestroys = 0 ∧ w.objAlive = true))

/- ======================================================================
   Owned containers (OwnedPtr.h lines 430-744).  Elements are raw
   pointers: `Option Nat`, none = NULL.  `destroyedOnClear` is the list
   of objects the destructor / clear() would delete
   (deleteEnsuringCompleteType on every non-null slot).
   ====================================================================== -/

/-- OwnedPtrVector<T>: a std::vector<T*> owning its non-null entries. -/
structure OwnedPtrVector where
  vec : List (Option Nat)
deriving DecidableEq

/-- OwnedPtrVector::size. -/
def OwnedPtrVector.size (v : OwnedPtrVector) : Nat := v.vec.length

/-- OwnedPtrVector::add: push_back(ptr.releaseRaw()). -/
def OwnedPtrVector.add (v : OwnedPtrVector) (p : Option Nat) : OwnedPtrVector :=
  { vec := v.vec ++ [p] }

/-- OwnedPtrVector::release(index): return vec[index] and store NULL in
the slot (the slot is not removed). -/
def OwnedPtrVector.release (v : OwnedPtrVector) (i : Nat) : Option Nat × OwnedPtrVector :=
  (v.vec.getD i none, { vec := v.vec.set i none })

/-- OwnedPtrVector::releaseBack: return vec.back() and pop_back(). -/
def OwnedPtrVector.releaseBack (v : OwnedPtrVector) : Option Nat × OwnedPtrVector :=
  (v.vec.getLastD none, { vec := v.vec.dropLast })

/-- OwnedPtrVector::releaseAndShift(index): return vec[index] and erase
the slot, shifting later elements down. -/
def OwnedPtrVector.releaseAndShift (v : OwnedPtrVector) (i : Nat) : Option Nat × OwnedPtrVector :=
  (v.vec.getD i none, { vec := v.vec.eraseIdx i })

/-- The objects destroyed by ~OwnedPtrVector or clear(): every non-null
entry. -/
def OwnedPtrVector.destroyedOnClear (v : OwnedPtrVector) : List Nat :=
  v.vec.filterMap id

/-- OwnedPtrDeque<T>: a std::deque<T*> owning its non-null entries. -/
structure OwnedPtrDeque where
  q : List (Option Nat)
deriving DecidableEq

/-- OwnedPtrDeque::size. -/
def OwnedPtrDeque.size (d : OwnedPtrDeque) : Nat := d.q.length

/-- OwnedPtrDeque::popFront: return q.front() and pop_front(). -/
def OwnedPtrDeque.popFront (d : OwnedPtrDeque) : Option Nat × OwnedPtrDeque :=
  (d.q.headD none, { q := d.q.tail })

/-- OwnedPtrDeque::popBack: return q.back() and pop_back(). -/
def OwnedPtrDeque.popBack (d : OwnedPtrDeque) : Option Nat × OwnedPtrDeque :=
  (d.q.getLastD none, { q := d.q.dropLast })

/-- The objects destroyed by ~OwnedPtrDeque or clear(). -/
def OwnedPtrDeque.destroyedOnClear (d : OwnedPtrDeque) : List Nat :=
  d.q.filterMap id

/-- Lookup in the unordered_map<Key, T*> underlying OwnedPtrMap:
the value stored for the unique entry with key k, if any. -/
def mapLookup : List (Nat × Option Nat) → Nat → Option (Option Nat)
  | [], _ => none
  | (k2, v) :: rest, k => if k2 = k then some v else mapLookup rest k

/-- map.erase(iter) for the entry found for key k: remove it. -/
def mapEraseKey : List (Nat × Option Nat) → Nat → List (Nat × Option Nat)
  | [], _ => []
  | (k2, v) :: rest, k => if k2 = k then rest else (k2, v) :: mapEraseKey rest k

/-- std::unordered_map::insert: fails without modification iff the key is
already present.  Returns the map and the success flag. -/
def mapInsertNew (es : List (Nat × Option Nat)) (k : Nat) (v : Option Nat) :
    List (Nat × Option Nat) × Bool :=
  if (mapLookup es k).isSome then (es, false) else (es ++ [(k, v)], true)

/-- OwnedPtrMap<Key, T>: an unordered_map<Key, T*> owning its non-null
values; keys are unique by construction of unordered_map. -/
structure OwnedPtrMap where
  entries : List (Nat × Option Nat)
deriving DecidableEq

/-- OwnedPtrMap::contains. -/
def OwnedPtrMap.contains (m : OwnedPtrMap) (k : Nat) : Bool :=
  (mapLookup m.entries k).isSome

/-- OwnedPtrMap::size. -/
def OwnedPtrMap.size (m : OwnedPtrMap) : Nat := m.entries.length

/-- OwnedPtrMap::addIfNew: take the raw pointer out of the argument
OwnedPtr, try to insert; on failure delete the offered value and return
false.  The third component is the list of objects destroyed by the call. -/
def OwnedPtrMap.addIfNew (m : OwnedPtrMap) (k : Nat) (v : Option Nat) :
    Bool × OwnedPtrMap × List Nat :=
  let r := mapInsertNew m.entries k v
  if r.2 then (true, { entries := r.1 }, [])
  else (false, { entries := r.1 }, v.toList)

/-- OwnedPtrMap::release(key, output): if the key is absent, reset the
output to NULL and return false; otherwise move the stored pointer into
the output, erase the entry and return true.  The third component is the
output parameter's content after the call. -/
def OwnedPtrMap.release (m : OwnedPtrMap) (k : Nat) : Bool × OwnedPtrMap × Option Nat :=
  match mapLookup m.entries k with
  | none => (false, m, none)
  | some v => (true, { entries := mapEraseKey m.entries k }, v)

/-- The objects destroyed by ~OwnedPtrMap or clear(): every non-null
value. -/
def OwnedPtrMap.destroyedOnClear (m : OwnedPtrMap) : List Nat :=
  m.entries.filterMap (fun e => e.2)

/- ======================================================================
   Theorems
   ====================================================================== -/

/-- After any single capture call the combined binding excludes both
single bindings. -/
theorem applyOp_combined_excl (c : CaptureState) (op : CapOp) :
    (c.applyOp op).stdoutAndStderrPipe = true →
      (c.applyOp op).stdoutPipe = false ∧ (c.applyOp op).stderrPipe = false := by
  cases op <;>
    simp [CaptureState.applyOp, CaptureState.captureStdout, CaptureState.captureStderr,
      CaptureState.captureStdoutAndStderr]

/-- The combined-vs-single exclusivity survives any sequence of capture
calls. -/
theorem runOps_combined_excl (ops : List CapOp) (c : CaptureState)
    (h : c.stdoutAndStderrPipe = true → c.stdoutPipe = false ∧ c.stderrPipe = false) :
    (c.runOps ops).stdoutAndStderrPipe = true →
      (c.runOps ops).stdoutPipe = false ∧ (c.runOps ops).stderrPipe = false := by
  induction ops generalizing c with
  | nil => exact h
  | cons op ops ih =>
    exact ih (c.applyOp op) (applyOp_combined_excl c op)

/-- C1 fails on the code as stated: calling captureStdout and then
captureStderr leaves BOTH the stdout-only and the stderr-only bindings
active, because each single-capture call clears only the combined
binding, not the other single one (Subprocess.cpp lines 98-108).  So it
is not true that after every sequence of capture-configuration calls at
most one capture mode is active. -/
theorem claim_C1_counterexample :
    ¬ (∀ ops : List CapOp, (CaptureState.init.runOps ops).activeCount ≤ 1) := by
  intro h
  have h2 := h [CapOp.stdout, CapOp.stderr]
  revert h2
  decide

/-- C1 (amended): the combined capture binding is mutually exclusive with
each single binding with last-write-wins — selecting stdout or stderr
clears the combined binding, selecting combined clears both single
bindings, and after any sequence of capture calls the combined binding is
active only when both single bindings are clear — but the stdout-only and
stderr-only bindings may be active simultaneously. -/
theorem claim_C1 :
    (∀ ops : List CapOp,
      (CaptureState.init.runOps ops).stdoutAndStderrPipe = true →
        (CaptureState.init.runOps ops).stdoutPipe = false ∧
        (CaptureState.init.runOps ops).stderrPipe = false) ∧
    (∀ c : CaptureState,
      (c.captureStdout).stdoutAndStderrPipe = false ∧
      (c.captureStderr).stdoutAndStderrPipe = false ∧
      (c.captureStdoutAndStderr).stdoutPipe = false ∧
      (c.captureStdoutAndStderr).stderrPipe = false) := by
  constructor
  · intro ops
    exact runOps_combined_excl ops CaptureState.init (by decide)
  · intro c
    simp [CaptureState.captureStdout, CaptureState.captureStderr,
      CaptureState.captureStdoutAndStderr]

/-- Witness for C1 at the concrete sequence [both]: the combined binding
is active and both single bindings are clear. -/
theorem claim_C1_witness :
    (CaptureState.init.runOps [CapOp.both]).stdoutAndStderrPipe = true ∧
    (CaptureState.init.runOps [CapOp.both]).stdoutPipe = false ∧
    (CaptureState.init.runOps [CapOp.both]).stderrPipe = false :=
  ⟨by decide, claim_C1.1 [CapOp.both] (by decide)⟩

/-- The state right after start is the mid-state with no notifications
processed. -/
theorem start_eq_mid (c : CaptureState) (pid : Int) (t : TermTag) (v : Int) :
    SubprocessState.start c pid = SubprocessState.mid c.activeCount pid t v 0 false := by
  simp [SubprocessState.start, SubprocessState.mid]

/-- Delivering a pipe-drain notification to a mid-state with at least one
undrained pipe advances its drained count. -/
theorem stepEv_pipeDone_mid (n : Nat) (pid : Int) (t : TermTag) (v : Int) (k : Nat) (e : Bool)
    (hk : k + 1 ≤ n) :
    (SubprocessState.mid n pid t v k e).stepEv Ev.pipeDone =
      some (SubprocessState.mid n pid t v (k + 1) e) := by
  have hkn : ¬ (k = n) := by omega
  cases e <;> cases t <;>
    simp only [SubprocessState.stepEv, SubprocessState.pipeDone, SubprocessState.mid,
      SubprocessState.maybeCallFinalCallback, TermTag.toState] <;>
    split_ifs <;> simp_all <;> omega

/-- Delivering the terminal notification to a mid-state that has not yet
received it records the terminal data (and fires the callback when all
pipes are already drained). -/
theorem stepEv_done_mid (n : Nat) (pid : Int) (t : TermTag) (v : Int) (k : Nat) :
    (SubprocessState.mid n pid t v k false).stepEv (Ev.done t v) =
      some (SubprocessState.mid n pid t v k true) := by
  cases t <;>
    simp only [SubprocessState.stepEv, SubprocessState.done, SubprocessState.mid,
      SubprocessState.maybeCallFinalCallback, TermTag.toState] <;>
    split_ifs <;> simp_all <;> omega

/-- Characterisation of every run of the completion machine: processing
any batch of notifications drawn from the pipe-drain/terminal multiset
moves a mid-state along by its counts, never hits the fatal
empty-callback dereference, and fires the callback exactly at the point
where the last notification arrives. -/
theorem runEvs_mid (n : Nat) (pid : Int) (t : TermTag) (v : Int) :
    ∀ (evs : List Ev) (k : Nat) (e : Bool),
      (∀ x ∈ evs, x = Ev.pipeDone ∨ x = Ev.done t v) →
      k + evs.count Ev.pipeDone ≤ n →
      (e = true → evs.count (Ev.done t v) = 0) →
      evs.count (Ev.done t v) ≤ 1 →
      (SubprocessState.mid n pid t v k e).runEvs evs =
        some (SubprocessState.mid n pid t v (k + evs.count Ev.pipeDone)
          (e || decide (1 ≤ evs.count (Ev.done t v)))) := by
  intro evs
  induction evs with
  | nil =>
    intro k e _ _ _ _
    simp [SubprocessState.runEvs]
  | cons x rest ih =>
    intro k e hmem hpipe hdone hdone1
    rcases hmem x (List.mem_cons_self x rest) with hx | hx
    · subst hx
      have hcp : (Ev.pipeDone :: rest).count Ev.pipeDone = rest.count Ev.pipeDone + 1 := by
        simp [List.count_cons]
      have hcd : (Ev.pipeDone :: rest).count (Ev.done t v) = rest.count (Ev.done t v) := by
        simp [List.count_cons]
      have hk1 : k + 1 ≤ n := by omega
      rw [SubprocessState.runEvs, SubprocessState.stepEv,
        show (SubprocessState.mid n pid t v k e).pipeDone =
            (SubprocessState.mid n pid t v k e).stepEv Ev.pipeDone from rfl,
        stepEv_pipeDone_mid n pid t v k e hk1]
      rw [Option.some_bind]
      have := ih (k + 1) e (fun y hy => hmem y (List.mem_cons_of_mem _ hy))
        (by omega) (by intro he; have := hdone he; omega) (by omega)
      rw [this, hcp, hcd]
      have harith : k + 1 + rest.count Ev.pipeDone = k + (rest.count Ev.pipeDone + 1) := by
        omega
      rw [harith]
    · subst hx
      have hcp : (Ev.done t v :: rest).count Ev.pipeDone = rest.count Ev.pipeDone := by
        simp [List.count_cons]
      have hcd : (Ev.done t v :: rest).count (Ev.done t v) = rest.count (Ev.done t v) + 1 := by
        simp [List.count_cons]
      have hrest0 : rest.count (Ev.done t v) = 0 := by omega
      have he : e = false := by
        cases e with
        | false => rfl
        | true => exact absurd (hdone rfl) (by omega)
      subst he
      rw [SubprocessState.runEvs, SubprocessState.stepEv,
        show (SubprocessState.mid n pid t v k false).done t v =
            (SubprocessState.mid n pid t v k false).stepEv (Ev.done t v) from rfl,
        stepEv_done_mid n pid t v k]
      rw [Option.some_bind]
      have := ih k true (fun y hy => hmem y (List.mem_cons_of_mem _ hy))
        (by omega) (fun _ => hrest0) (by omega)
      rw [this, hcp, hcd, hrest0]
      simp

/-- Properties of a mid-state needed for the completion contract: at most
one invocation is ever logged, the callback has been invoked exactly when
the pending-pipe counter is zero and the state is terminal, and the
reference to the callback is gone exactly when it has been invoked. -/
theorem mid_props (n : Nat) (pid : Int) (t : TermTag) (v : Int) (k : Nat) (e : Bool) :
    (SubprocessState.mid n pid t v k e).calls.length ≤ 1 ∧
    ((SubprocessState.mid n pid t v k e).calls ≠ [] ↔
      ((SubprocessState.mid n pid t v k e).pipeCount = 0 ∧
        (SubprocessState.mid n pid t v k e).state.isTerminal = true)) ∧
    ((SubprocessState.mid n pid t v k e).finalCallback = false ↔
      (SubprocessState.mid n pid t v k e).calls ≠ []) := by
  cases e <;> cases t <;> by_cases hkn : k = n <;>
    simp [SubprocessState.mid, PState.isTerminal, TermTag.toState, hkn] <;> omega

/-- The notification counts of any interleaving of the pipe-drain and
terminal notifications. -/
theorem perm_counts (n : Nat) (t : TermTag) (v : Int) (evs : List Ev)
    (h : evs.Perm (List.replicate n Ev.pipeDone ++ [Ev.done t v])) :
    evs.count Ev.pipeDone = n ∧ evs.count (Ev.done t v) = 1 ∧
      (∀ x ∈ evs, x = Ev.pipeDone ∨ x = Ev.done t v) := by
  refine ⟨?_, ?_, ?_⟩
  · rw [h.count_eq]
    simp [List.count_append, List.count_replicate, List.count_cons]
  · rw [h.count_eq]
    simp [List.count_append, List.count_replicate, List.count_cons]
  · intro x hx
    have hx2 := h.mem_iff.mp hx
    rcases List.mem_append.mp hx2 with h1 | h1
    · exact Or.inl (List.eq_of_mem_replicate h1)
    · right
      simpa using h1

/-- Any full interleaving of the notifications drives a started manager
to the fully-completed mid-state, without ever dereferencing an empty
callback handle. -/
theorem runEvs_perm_final (c : CaptureState) (pid : Int) (t : TermTag) (v : Int) (evs : List Ev)
    (h : evs.Perm (List.replicate c.activeCount Ev.pipeDone ++ [Ev.done t v])) :
    (SubprocessState.start c pid).runEvs evs =
      some (SubprocessState.mid c.activeCount pid t v c.activeCount true) := by
  obtain ⟨hcp, hcd, hmem⟩ := perm_counts c.activeCount t v evs h
  have hrun := runEvs_mid c.activeCount pid t v evs 0 false hmem (by omega)
    (by intro he; cases he) (by omega)
  rw [start_eq_mid c pid t v, hrun, hcp, hcd]
  norm_num

/-- Any prefix of an interleaving drives a started manager to the
mid-state given by the prefix's notification counts. -/
theorem runEvs_perm_prefix (c : CaptureState) (pid : Int) (t : TermTag) (v : Int)
    (evs p q : List Ev)
    (h : evs.Perm (List.replicate c.activeCount Ev.pipeDone ++ [Ev.done t v]))
    (hpq : evs = p ++ q) :
    (SubprocessState.start c pid).runEvs p =
      some (SubprocessState.mid c.activeCount pid t v (p.count Ev.pipeDone)
        (decide (1 ≤ p.count (Ev.done t v)))) := by
  obtain ⟨hcp, hcd, hmem⟩ := perm_counts c.activeCount t v evs h
  rw [hpq] at hcp hcd
  simp only [List.count_append] at hcp hcd
  have hrun := runEvs_mid c.activeCount pid t v p 0 false
    (fun x hx => hmem x (by rw [hpq]; exact List.mem_append_left q hx))
    (by omega) (by intro he; cases he) (by omega)
  rw [start_eq_mid c pid t v, hrun]
  simp

/-- C2: for every started invocation, assuming each configured pipe's
drain notification and the exit/signal notification each arrive exactly
once (in any order), the completion callback is invoked exactly once, with
the terminal tag and value, the manager drops its reference right after
invoking, and at every intermediate point the callback has been invoked
if and only if the pending-pipe counter is zero and the state is
terminal; the invocation log never exceeds one entry. -/
theorem claim_C2 (c : CaptureState) (pid : Int) (t : TermTag) (v : Int) (evs : List Ev)
    (h : evs.Perm (List.replicate c.activeCount Ev.pipeDone ++ [Ev.done t v])) :
    (∃ s, (SubprocessState.start c pid).runEvs evs = some s ∧
      s.calls = [(t, v)] ∧ s.finalCallback = false ∧ s.pipeCount = 0 ∧
      s.state = t.toState ∧ s.exitStatusOrSignalNumber = v) ∧
    (∀ p q : List Ev, evs = p ++ q →
      ∃ s, (SubprocessState.start c pid).runEvs p = some s ∧
        s.calls.length ≤ 1 ∧
        ((s.calls ≠ []) ↔ (s.pipeCount = 0 ∧ s.state.isTerminal = true)) ∧
        (s.finalCallback = false ↔ s.calls ≠ [])) := by
  constructor
  · refine ⟨_, runEvs_perm_final c pid t v evs h, ?_, ?_, ?_, ?_, ?_⟩ <;>
      simp [SubprocessState.mid]
  · intro p q hpq
    exact ⟨_, runEvs_perm_prefix c pid t v evs p q h hpq, mid_props _ _ _ _ _ _⟩

/-- Witness for C2: one captured pipe, drain then exit with code 0. -/
theorem claim_C2_witness :
    ([Ev.pipeDone, Ev.done TermTag.exited 0].Perm
      (List.replicate (CaptureState.init.captureStdout).activeCount Ev.pipeDone ++
        [Ev.done TermTag.exited 0])) ∧
    (∃ s, (SubprocessState.start (CaptureState.init.captureStdout) 7).runEvs
        [Ev.pipeDone, Ev.done TermTag.exited 0] = some s ∧
      s.calls = [(TermTag.exited, 0)] ∧ s.finalCallback = false ∧ s.pipeCount = 0 ∧
      s.state = TermTag.exited.toState ∧ s.exitStatusOrSignalNumber = 0) := by
  have h : ([Ev.pipeDone, Ev.done TermTag.exited 0].Perm
      (List.replicate (CaptureState.init.captureStdout).activeCount Ev.pipeDone ++
        [Ev.done TermTag.exited 0])) := by decide
  exact ⟨h, (claim_C2 (CaptureState.init.captureStdout) 7 TermTag.exited 0
    [Ev.pipeDone, Ev.done TermTag.exited 0] h).1⟩

/-- C7: with a fixed capture configuration, every interleaving order of
the per-pipe drain notifications and the terminal notification produces
the same final state, with the callback invoked once with the terminal
tag and value — the machine is commutative with respect to notification
order. -/
theorem claim_C7 (c : CaptureState) (pid : Int) (t : TermTag) (v : Int) (evs1 evs2 : List Ev)
    (h1 : evs1.Perm (List.replicate c.activeCount Ev.pipeDone ++ [Ev.done t v]))
    (h2 : evs2.Perm (List.replicate c.activeCount Ev.pipeDone ++ [Ev.done t v])) :
    (SubprocessState.start c pid).runEvs evs1 = (SubprocessState.start c pid).runEvs evs2 ∧
    (∃ s, (SubprocessState.start c pid).runEvs evs1 = some s ∧
      s.calls = [(t, v)] ∧ s.state = t.toState ∧ s.exitStatusOrSignalNumber = v) := by
  constructor
  · rw [runEvs_perm_final c pid t v evs1 h1, runEvs_perm_final c pid t v evs2 h2]
  · refine ⟨_, runEvs_perm_final c pid t v evs1 h1, ?_, ?_, ?_⟩ <;>
      simp [SubprocessState.mid]

/-- Witness for C7: one captured pipe, the two orders of drain and exit. -/
theorem claim_C7_witness :
    ([Ev.pipeDone, Ev.done TermTag.exited 0].Perm
      (List.replicate (CaptureState.init.captureStdout).activeCount Ev.pipeDone ++
        [Ev.done TermTag.exited 0])) ∧
    ([Ev.done TermTag.exited 0, Ev.pipeDone].Perm
      (List.replicate (CaptureState.init.captureStdout).activeCount Ev.pipeDone ++
        [Ev.done TermTag.exited 0])) ∧
    ((SubprocessState.start (CaptureState.init.captureStdout) 7).runEvs
        [Ev.pipeDone, Ev.done TermTag.exited 0] =
      (SubprocessState.start (CaptureState.init.captureStdout) 7).runEvs
        [Ev.done TermTag.exited 0, Ev.pipeDone]) := by
  have h1 : ([Ev.pipeDone, Ev.done TermTag.exited 0].Perm
      (List.replicate (CaptureState.init.captureStdout).activeCount Ev.pipeDone ++
        [Ev.done TermTag.exited 0])) := by decide
  have h2 : ([Ev.done TermTag.exited 0, Ev.pipeDone].Perm
      (List.replicate (CaptureState.init.captureStdout).activeCount Ev.pipeDone ++
        [Ev.done TermTag.exited 0])) := by decide
  exact ⟨h1, h2, (claim_C7 (CaptureState.init.captureStdout) 7 TermTag.exited 0
    [Ev.pipeDone, Ev.done TermTag.exited 0] [Ev.done TermTag.exited 0, Ev.pipeDone] h1 h2).1⟩

/-- C8: when the exec call in the child branch fails, the child
terminates with the fixed status 1, and the parent-side machine observes
a terminal EXITED state with status 1 delivered through the completion
callback — indistinguishable from the target program exiting with
status 1. -/
theorem claim_C8 (a : ArgState) (c : CaptureState) (pid : Int) (evs : List Ev)
    (h : evs.Perm (List.replicate c.activeCount Ev.pipeDone ++ [Ev.done TermTag.exited 1])) :
    a.childBranch false = ChildResult.exitFailure 1 ∧
    (∃ s, (SubprocessState.start c pid).runEvs evs = some s ∧
      s.state = PState.EXITED ∧ s.exitStatusOrSignalNumber = 1 ∧
      s.calls = [(TermTag.exited, 1)]) := by
  constructor
  · rfl
  · refine ⟨_, runEvs_perm_final c pid TermTag.exited 1 evs h, ?_, ?_, ?_⟩ <;>
      simp [SubprocessState.mid, TermTag.toState]

/-- Witness for C8: no pipes configured, the exit notification alone. -/
theorem claim_C8_witness :
    ([Ev.done TermTag.exited 1].Perm
      (List.replicate CaptureState.init.activeCount Ev.pipeDone ++ [Ev.done TermTag.exited 1])) ∧
    ArgState.init.childBranch false = ChildResult.exitFailure 1 ∧
    (∃ s, (SubprocessState.start CaptureState.init 7).runEvs [Ev.done TermTag.exited 1] = some s ∧
      s.state = PState.EXITED ∧ s.exitStatusOrSignalNumber = 1 ∧
      s.calls = [(TermTag.exited, 1)]) := by
  have h : ([Ev.done TermTag.exited 1].Perm
      (List.replicate CaptureState.init.activeCount Ev.pipeDone ++
        [Ev.done TermTag.exited 1])) := by decide
  exact ⟨h, claim_C8 ArgState.init CaptureState.init 7 [Ev.done TermTag.exited 1] h⟩

/-- C9: a plain-text argument appended to an empty argument list becomes
the executable locator with PATH lookup enabled; a file-backed argument
appended to an empty list sets the locator to the resolved path with PATH
lookup disabled; later arguments leave the locator and flag untouched;
every file-backed argument's disk reference is retained in the owned
list; and the child branch execs via PATH lookup or exact path according
to the recorded flag. -/
theorem claim_C9 (a : ArgState) (arg path : String) :
    (a.args = [] →
      (a.addArgument arg).executableName = arg ∧ (a.addArgument arg).doPathLookup = true ∧
      (a.addArgument arg).args = [arg]) ∧
    (a.args = [] →
      (a.addArgumentFile path).executableName = path ∧
      (a.addArgumentFile path).doPathLookup = false ∧
      (a.addArgumentFile path).args = [path]) ∧
    (a.args ≠ [] →
      (a.addArgument arg).executableName = a.executableName ∧
      (a.addArgument arg).doPathLookup = a.doPathLookup ∧
      (a.addArgument arg).args = a.args ++ [arg]) ∧
    ((a.addArgumentFile path).diskRefs = a.diskRefs ++ [path]) ∧
    (a.doPathLookup = true → a.childBranch true = ChildResult.execPath a.executableName a.args) ∧
    (a.doPathLookup = false → a.childBranch true = ChildResult.execExact a.executableName a.args)
    := by
  refine ⟨?_, ?_, ?_, ?_, ?_, ?_⟩
  · intro h
    simp [ArgState.addArgument, h]
  · intro h
    simp [ArgState.addArgumentFile, h]
  · intro h
    simp [ArgState.addArgument, List.isEmpty_iff, h]
  · by_cases h : a.args.isEmpty <;> simp [ArgState.addArgumentFile, h]
  · intro h
    simp [ArgState.childBranch, h]
  · intro h
    simp [ArgState.childBranch, h]

/-- Witness for C9 on a fresh invocation record with a plain argument
"ls" and a file path "/tmp/f". -/
theorem claim_C9_witness :
    (ArgState.init.args = []) ∧
    ((ArgState.init.addArgument "ls").executableName = "ls" ∧
      (ArgState.init.addArgument "ls").doPathLookup = true ∧
      (ArgState.init.addArgument "ls").args = ["ls"]) ∧
    ((ArgState.init.addArgumentFile "/tmp/f").executableName = "/tmp/f" ∧
      (ArgState.init.addArgumentFile "/tmp/f").doPathLookup = false ∧
      (ArgState.init.addArgumentFile "/tmp/f").args = ["/tmp/f"]) ∧
    ((ArgState.init.addArgumentFile "/tmp/f").diskRefs = ArgState.init.diskRefs ++ ["/tmp/f"]) ∧
    (ArgState.init.childBranch true =
      ChildResult.execExact ArgState.init.executableName ArgState.init.args) := by
  have h := claim_C9 ArgState.init "ls" "/tmp/f"
  exact ⟨rfl, h.1 rfl, h.2.1 rfl, h.2.2.2.1, h.2.2.2.2.2 rfl⟩

/-- An indexed read that yields a pointer means that pointer is a slot of
the vector. -/
theorem getD_some_mem (l : List (Option Nat)) :
    ∀ (i : Nat) (p : Nat), l.getD i none = some p → some p ∈ l := by
  induction l with
  | nil =>
    intro i p h
    simp [List.getD] at h
  | cons x t ih =>
    intro i p h
    cases i with
    | zero =>
      rw [List.getD_cons_zero] at h
      exact h ▸ List.mem_cons_self x t
    | succ i =>
      rw [List.getD_cons_succ] at h
      exact List.mem_cons_of_mem x (ih i p h)

/-- A pointer stored in a slot is among the objects clear() destroys. -/
theorem mem_filterMap_id (l : List (Option Nat)) (p : Nat) (h : some p ∈ l) :
    p ∈ l.filterMap id :=
  List.mem_filterMap.mpr ⟨some p, h, rfl⟩

/-- After release(index) stores NULL in slot i, the released pointer is
no longer among the objects clear() destroys (the container held it in no
other slot, by unique ownership). -/
theorem notmem_filterMap_set (l : List (Option Nat)) :
    ∀ (i : Nat) (p : Nat), l.getD i none = some p → (l.filterMap id).Nodup →
      p ∉ (l.set i none).filterMap id := by
  induction l with
  | nil =>
    intro i p h _
    simp [List.getD] at h
  | cons x t ih =>
    intro i p h hn
    cases i with
    | zero =>
      rw [List.getD_cons_zero] at h
      subst h
      rw [List.set_cons_zero]
      have hn2 : (p :: t.filterMap id).Nodup := by
        simpa using hn
      have hgoal : (none :: t).filterMap id = t.filterMap id := by simp
      rw [hgoal]
      exact (List.nodup_cons.mp hn2).1
    | succ i =>
      rw [List.getD_cons_succ] at h
      rw [List.set_cons_succ]
      cases x with
      | none =>
        have he : ∀ r : List (Option Nat), (none :: r).filterMap id = r.filterMap id := by
          intro r
          simp
        rw [he] at hn ⊢
        exact ih i p h hn
      | some q =>
        have he : ∀ r : List (Option Nat), (some q :: r).filterMap id = q :: r.filterMap id := by
          intro r
          simp
        rw [he] at hn ⊢
        have hmem : p ∈ t.filterMap id := mem_filterMap_id t p (getD_some_mem t i p h)
        have hq := (List.nodup_cons.mp hn).1
        have hnt := (List.nodup_cons.mp hn).2
        intro hcon
        rcases List.mem_cons.mp hcon with hpq | hrec
        · exact hq (hpq ▸ hmem)
        · exact ih i p h hnt hrec

/-- After releaseAndShift(index) erases slot i, the released pointer is
no longer among the objects clear() destroys. -/
theorem notmem_filterMap_eraseIdx (l : List (Option Nat)) :
    ∀ (i : Nat) (p : Nat), l.getD i none = some p → (l.filterMap id).Nodup →
      p ∉ (l.eraseIdx i).filterMap id := by
  induction l with
  | nil =>
    intro i p h _
    simp [List.getD] at h
  | cons x t ih =>
    intro i p h hn
    cases i with
    | zero =>
      rw [List.getD_cons_zero] at h
      subst h
      rw [List.eraseIdx_cons_zero]
      have hn2 : (p :: t.filterMap id).Nodup := by
        simpa using hn
      exact (List.nodup_cons.mp hn2).1
    | succ i =>
      rw [List.getD_cons_succ] at h
      rw [List.eraseIdx_cons_succ]
      cases x with
      | none =>
        have he : ∀ r : List (Option Nat), (none :: r).filterMap id = r.filterMap id := by
          intro r
          simp
        rw [he] at hn ⊢
        exact ih i p h hn
      | some q =>
        have he : ∀ r : List (Option Nat), (some q :: r).filterMap id = q :: r.filterMap id := by
          intro r
          simp
        rw [he] at hn ⊢
        have hmem : p ∈ t.filterMap id := mem_filterMap_id t p (getD_some_mem t i p h)
        have hq := (List.nodup_cons.mp hn).1
        have hnt := (List.nodup_cons.mp hn).2
        intro hcon
        rcases List.mem_cons.mp hcon with hpq | hrec
        · exact hq (hpq ▸ hmem)
        · exact ih i p h hnt hrec

/-- After releaseBack / popBack pops the last slot, the released pointer
is no longer among the objects clear() destroys. -/
theorem notmem_filterMap_dropLast (l : List (Option Nat)) (p : Nat)
    (h : l.getLastD none = some p) (hn : (l.filterMap id).Nodup) :
    p ∉ l.dropLast.filterMap id := by
  have hne : l ≠ [] := by
    intro hcon
    subst hcon
    simp [List.getLastD] at h
  have hlast : l.getLast hne = some p := by
    rw [List.getLastD_eq_getLast? none l, List.getLast?_eq_getLast l hne] at h
    simpa using h
  have hdecomp := List.dropLast_append_getLast hne
  rw [← hdecomp, hlast] at hn
  rw [List.filterMap_append] at hn
  have : l.dropLast.filterMap id ++ [p] = l.dropLast.filterMap id ++ ([some p].filterMap id) := by
    simp
  rw [← this] at hn
  have hdisj := (List.nodup_append.mp hn).2.2
  intro hcon
  exact absurd (List.mem_singleton_self p) (hdisj hcon)

/-- A successful lookup returns a stored entry. -/
theorem mapLookup_mem (es : List (Nat × Option Nat)) (k : Nat) (v : Option Nat)
    (h : mapLookup es k = some v) : (k, v) ∈ es := by
  induction es with
  | nil => simp [mapLookup] at h
  | cons e rest ih =>
    rw [show mapLookup (e :: rest) k = if e.1 = k then some e.2 else mapLookup rest k
        from rfl] at h
    by_cases he : e.1 = k
    · rw [if_pos he] at h
      injection h with hv
      subst hv
      subst he
      exact List.mem_cons_self e rest
    · rw [if_neg he] at h
      exact List.mem_cons_of_mem e (ih h)

/-- Lookup fails when the key is not among the stored keys. -/
theorem mapLookup_eq_none (es : List (Nat × Option Nat)) (k : Nat)
    (h : k ∉ es.map Prod.fst) : mapLookup es k = none := by
  induction es with
  | nil => rfl
  | cons e rest ih =>
    rw [show mapLookup (e :: rest) k = if e.1 = k then some e.2 else mapLookup rest k
        from rfl]
    simp only [List.map_cons, List.mem_cons] at h
    rw [if_neg (fun hc => h (Or.inl hc.symm))]
    exact ih (fun hc => h (Or.inr hc))

/-- Erasing a key from a unique-key entry list removes it: the lookup
afterwards fails. -/
theorem mapLookup_eraseKey_self (es : List (Nat × Option Nat)) (k : Nat)
    (hk : (es.map Prod.fst).Nodup) : mapLookup (mapEraseKey es k) k = none := by
  induction es with
  | nil => rfl
  | cons e rest ih =>
    simp only [List.map_cons, List.nodup_cons] at hk
    rw [show mapEraseKey (e :: rest) k = if e.1 = k then rest else e :: mapEraseKey rest k
        from by cases e; rfl]
    by_cases he : e.1 = k
    · rw [if_pos he]
      exact mapLookup_eq_none rest k (he ▸ hk.1)
    · rw [if_neg he]
      rw [show mapLookup (e :: mapEraseKey rest k) k =
          if e.1 = k then some e.2 else mapLookup (mapEraseKey rest k) k from by cases e; rfl]
      rw [if_neg he]
      exact ih hk.2

/-- Erasing a present key shrinks the entry list by one. -/
theorem mapEraseKey_length (es : List (Nat × Option Nat)) (k : Nat)
    (h : (mapLookup es k).isSome) : (mapEraseKey es k).length + 1 = es.length := by
  induction es with
  | nil => simp [mapLookup] at h
  | cons e rest ih =>
    rw [show mapLookup (e :: rest) k = if e.1 = k then some e.2 else mapLookup rest k
        from rfl] at h
    rw [show mapEraseKey (e :: rest) k = if e.1 = k then rest else e :: mapEraseKey rest k
        from by cases e; rfl]
    by_cases he : e.1 = k
    · rw [if_pos he]
      simp
    · rw [if_neg he]
      rw [if_neg he] at h
      simp only [List.length_cons]
      rw [← ih h]

/-- The pointer released by key is not among the objects destroying the
remaining map would delete, assuming each owned pointer is stored in at
most one entry. -/
theorem notmem_filterMap_eraseKey (es : List (Nat × Option Nat)) (k : Nat) (p : Nat)
    (hl : mapLookup es k = some (some p))
    (hn : (es.filterMap (fun e => e.2)).Nodup) :
    p ∉ (mapEraseKey es k).filterMap (fun e => e.2) := by
  induction es with
  | nil => simp [mapLookup] at hl
  | cons e rest ih =>
    rw [show mapLookup (e :: rest) k = if e.1 = k then some e.2 else mapLookup rest k
        from rfl] at hl
    rw [show mapEraseKey (e :: rest) k = if e.1 = k then rest else e :: mapEraseKey rest k
        from by cases e; rfl]
    by_cases he : e.1 = k
    · rw [if_pos he]
      rw [if_pos he] at hl
      injection hl with hv
      have he2 : (e :: rest).filterMap (fun e => e.2) = p :: rest.filterMap (fun e => e.2) := by
        rw [show (e :: rest).filterMap (fun e => e.2) =
            match e.2 with
            | none => rest.filterMap (fun e => e.2)
            | some q => q :: rest.filterMap (fun e => e.2) from by cases he2 : e.2 <;> simp [List.filterMap_cons, he2]]
        rw [hv]
      rw [he2] at hn
      exact (List.nodup_cons.mp hn).1
    · rw [if_neg he]
      rw [if_neg he] at hl
      cases hev : e.2 with
      | none =>
        have hrw : ∀ r : List (Nat × Option Nat),
            ((e :: r).filterMap (fun e => e.2)) = r.filterMap (fun e => e.2) := by
          intro r
          simp [List.filterMap_cons, hev]
        rw [hrw] at hn ⊢
        exact ih hl hn
      | some q =>
        have hrw : ∀ r : List (Nat × Option Nat),
            ((e :: r).filterMap (fun e => e.2)) = q :: r.filterMap (fun e => e.2) := by
          intro r
          simp [List.filterMap_cons, hev]
        rw [hrw] at hn ⊢
        have hmem : p ∈ rest.filterMap (fun e => e.2) :=
          List.mem_filterMap.mpr ⟨(k, some p), mapLookup_mem rest k (some p) hl, rfl⟩
        have hq := (List.nodup_cons.mp hn).1
        have hnt := (List.nodup_cons.mp hn).2
        intro hcon
        rcases List.mem_cons.mp hcon with hpq | hrec
        · exact hq (hpq ▸ hmem)
        · exact ih hl hnt hrec

/-- C5 fails on the code as stated for release-by-index:
OwnedPtrVector::release(index) stores NULL into the slot but does NOT
remove the slot (OwnedPtr.h lines 459-463) — releasing the only element
of a one-element vector leaves size() == 1 and a NULL slot, not an empty
vector.  The ownership transfer itself does happen. -/
theorem claim_C5_counterexample :
    (OwnedPtrVector.release { vec := [some 7] } 0).1 = some 7 ∧
    (OwnedPtrVector.release { vec := [some 7] } 0).2.vec = [none] ∧
    ¬ ((OwnedPtrVector.release { vec := [some 7] } 0).2.size = 0) := by
  decide

/-- C5 (amended): every release-family operation transfers ownership of
the element to the caller; releaseBack, releaseAndShift, popFront,
popBack and release-by-key also remove the slot/entry, while
release-by-index leaves a NULL slot in place (size unchanged); in all
cases, given that the container held the released pointer in exactly one
slot, destroying or clearing the container afterwards does not destroy
the released element. -/
theorem claim_C5 :
    (∀ (l : List (Option Nat)) (i p : Nat), l.getD i none = some p →
      (l.filterMap id).Nodup →
      (OwnedPtrVector.release { vec := l } i).1 = some p ∧
      (OwnedPtrVector.release { vec := l } i).2.vec = l.set i none ∧
      (OwnedPtrVector.release { vec := l } i).2.size = l.length ∧
      p ∉ (OwnedPtrVector.release { vec := l } i).2.destroyedOnClear) ∧
    (∀ (l : List (Option Nat)) (p : Nat), l.getLastD none = some p →
      (l.filterMap id).Nodup →
      (OwnedPtrVector.releaseBack { vec := l }).1 = some p ∧
      (OwnedPtrVector.releaseBack { vec := l }).2.vec = l.dropLast ∧
      (OwnedPtrVector.releaseBack { vec := l }).2.size = l.length - 1 ∧
      p ∉ (OwnedPtrVector.releaseBack { vec := l }).2.destroyedOnClear) ∧
    (∀ (l : List (Option Nat)) (i p : Nat), l.getD i none = some p → i < l.length →
      (l.filterMap id).Nodup →
      (OwnedPtrVector.releaseAndShift { vec := l } i).1 = some p ∧
      (OwnedPtrVector.releaseAndShift { vec := l } i).2.size = l.length - 1 ∧
      p ∉ (OwnedPtrVector.releaseAndShift { vec := l } i).2.destroyedOnClear) ∧
    (∀ (l : List (Option Nat)) (p : Nat), l.headD none = some p →
      (l.filterMap id).Nodup →
      (OwnedPtrDeque.popFront { q := l }).1 = some p ∧
      (OwnedPtrDeque.popFront { q := l }).2.size = l.length - 1 ∧
      p ∉ (OwnedPtrDeque.popFront { q := l }).2.destroyedOnClear) ∧
    (∀ (l : List (Option Nat)) (p : Nat), l.getLastD none = some p →
      (l.filterMap id).Nodup →
      (OwnedPtrDeque.popBack { q := l }).1 = some p ∧
      (OwnedPtrDeque.popBack { q := l }).2.size = l.length - 1 ∧
      p ∉ (OwnedPtrDeque.popBack { q := l }).2.destroyedOnClear) ∧
    (∀ (es : List (Nat × Option Nat)) (k p : Nat),
      mapLookup es k = some (some p) →
      (es.map Prod.fst).Nodup →
      (es.filterMap (fun e => e.2)).Nodup →
      (OwnedPtrMap.release { entries := es } k).1 = true ∧
      (OwnedPtrMap.release { entries := es } k).2.2 = some p ∧
      (OwnedPtrMap.release { entries := es } k).2.1.contains k = false ∧
      (OwnedPtrMap.release { entries := es } k).2.1.size + 1 = es.length ∧
      p ∉ (OwnedPtrMap.release { entries := es } k).2.1.destroyedOnClear) := by
  refine ⟨?_, ?_, ?_, ?_, ?_, ?_⟩
  · intro l i p hg hn
    refine ⟨hg, rfl, ?_, ?_⟩
    · simp [OwnedPtrVector.release, OwnedPtrVector.size]
    · exact notmem_filterMap_set l i p hg hn
  · intro l p hg hn
    refine ⟨hg, rfl, ?_, ?_⟩
    · simp [OwnedPtrVector.releaseBack, OwnedPtrVector.size]
    · exact notmem_filterMap_dropLast l p hg hn
  · intro l i p hg hi hn
    refine ⟨hg, ?_, ?_⟩
    · simp [OwnedPtrVector.releaseAndShift, OwnedPtrVector.size, List.length_eraseIdx, hi]
    · exact notmem_filterMap_eraseIdx l i p hg hn
  · intro l p hg hn
    cases l with
    | nil => simp [List.headD] at hg
    | cons x t =>
      rw [List.headD_cons] at hg
      subst hg
      refine ⟨rfl, ?_, ?_⟩
      · simp [OwnedPtrDeque.popFront, OwnedPtrDeque.size]
      · have he : (some p :: t).filterMap id = p :: t.filterMap id := by simp
        rw [he] at hn
        exact (List.nodup_cons.mp hn).1
  · intro l p hg hn
    refine ⟨hg, ?_, ?_⟩
    · simp [OwnedPtrDeque.popBack, OwnedPtrDeque.size]
    · exact notmem_filterMap_dropLast l p hg hn
  · intro es k p hl hk hv
    have hrel : OwnedPtrMap.release { entries := es } k =
        (true, { entries := mapEraseKey es k }, some p) := by
      simp [OwnedPtrMap.release, hl]
    rw [hrel]
    refine ⟨rfl, rfl, ?_, ?_, ?_⟩
    · simp [OwnedPtrMap.contains, mapLookup_eraseKey_self es k hk]
    · exact mapEraseKey_length es k (by simp [hl])
    · exact notmem_filterMap_eraseKey es k p hl hv

/-- Witness for C5 on concrete two-element containers. -/
theorem claim_C5_witness :
    ((OwnedPtrVector.release { vec := [some 3, some 7] } 0).1 = some 3 ∧
      (OwnedPtrVector.release { vec := [some 3, some 7] } 0).2.vec = [none, some 7] ∧
      (OwnedPtrVector.release { vec := [some 3, some 7] } 0).2.size = 2 ∧
      3 ∉ (OwnedPtrVector.release { vec := [some 3, some 7] } 0).2.destroyedOnClear) ∧
    ((OwnedPtrVector.releaseBack { vec := [some 3, some 7] }).1 = some 7 ∧
      7 ∉ (OwnedPtrVector.releaseBack { vec := [some 3, some 7] }).2.destroyedOnClear) ∧
    ((OwnedPtrVector.releaseAndShift { vec := [some 3, some 7] } 0).1 = some 3 ∧
      (OwnedPtrVector.releaseAndShift { vec := [some 3, some 7] } 0).2.size = 1 ∧
      3 ∉ (OwnedPtrVector.releaseAndShift { vec := [some 3, some 7] } 0).2.destroyedOnClear) ∧
    ((OwnedPtrDeque.popFront { q := [some 3, some 7] }).1 = some 3 ∧
      3 ∉ (OwnedPtrDeque.popFront { q := [some 3, some 7] }).2.destroyedOnClear) ∧
    ((OwnedPtrDeque.popBack { q := [some 3, some 7] }).1 = some 7 ∧
      7 ∉ (OwnedPtrDeque.popBack { q := [some 3, some 7] }).2.destroyedOnClear) ∧
    ((OwnedPtrMap.release { entries := [(1, some 3), (2, some 7)] } 1).1 = true ∧
      (OwnedPtrMap.release { entries := [(1, some 3), (2, some 7)] } 1).2.2 = some 3 ∧
      (OwnedPtrMap.release { entries := [(1, some 3), (2, some 7)] } 1).2.1.contains 1 = false ∧
      3 ∉ (OwnedPtrMap.release { entries := [(1, some 3), (2, some 7)] } 1).2.1.destroyedOnClear)
    := by
  have h1 := claim_C5.1 [some 3, some 7] 0 3 (by decide) (by decide)
  have h2 := claim_C5.2.1 [some 3, some 7] 7 (by decide) (by decide)
  have h3 := claim_C5.2.2.1 [some 3, some 7] 0 3 (by decide) (by decide) (by decide)
  have h4 := claim_C5.2.2.2.1 [some 3, some 7] 3 (by decide) (by decide)
  have h5 := claim_C5.2.2.2.2.1 [some 3, some 7] 7 (by decide) (by decide)
  have h6 := claim_C5.2.2.2.2.2 [(1, some 3), (2, some 7)] 1 3 (by decide) (by decide) (by decide)
  exact ⟨⟨h1.1, h1.2.1, h1.2.2.1, h1.2.2.2⟩, ⟨h2.1, h2.2.2.2⟩, ⟨h3.1, h3.2.1, h3.2.2⟩,
    ⟨h4.1, h4.2.2⟩, ⟨h5.1, h5.2.2⟩, ⟨h6.1, h6.2.1, h6.2.2.1, h6.2.2.2.2⟩⟩

/-- C10: addIfNew with an already-present key returns false, leaves the
map unchanged and destroys the offered element; with an absent key it
returns true and stores the element.  Either way ownership of the
argument is consumed by the call: the element ends up stored or
destroyed, never returned to the caller. -/
theorem claim_C10 (m : OwnedPtrMap) (k : Nat) (v : Option Nat) :
    (m.contains k = true →
      (m.addIfNew k v).1 = false ∧ (m.addIfNew k v).2.1 = m ∧
      (m.addIfNew k v).2.2 = v.toList) ∧
    (m.contains k = false →
      (m.addIfNew k v).1 = true ∧
      (m.addIfNew k v).2.1.entries = m.entries ++ [(k, v)] ∧
      (m.addIfNew k v).2.2 = []) := by
  constructor
  · intro h
    rw [OwnedPtrMap.contains] at h
    have hins : mapInsertNew m.entries k v = (m.entries, false) := by
      simp [mapInsertNew, h]
    simp [OwnedPtrMap.addIfNew, hins]
  · intro h
    rw [OwnedPtrMap.contains] at h
    have hins : mapInsertNew m.entries k v = (m.entries ++ [(k, v)], true) := by
      simp [mapInsertNew, h]
    simp [OwnedPtrMap.addIfNew, hins]

/-- Witness for C10: offering pointer 9 under the occupied key 1 fails,
leaves the map as it was and destroys 9; offering it under the fresh key
2 succeeds. -/
theorem claim_C10_witness :
    (OwnedPtrMap.contains { entries := [(1, some 5)] } 1 = true ∧
      (OwnedPtrMap.addIfNew { entries := [(1, some 5)] } 1 (some 9)).1 = false ∧
      (OwnedPtrMap.addIfNew { entries := [(1, some 5)] } 1 (some 9)).2.1 =
        { entries := [(1, some 5)] } ∧
      (OwnedPtrMap.addIfNew { entries := [(1, some 5)] } 1 (some 9)).2.2 = [9]) ∧
    (OwnedPtrMap.contains { entries := [(1, some 5)] } 2 = false ∧
      (OwnedPtrMap.addIfNew { entries := [(1, some 5)] } 2 (some 9)).1 = true ∧
      (OwnedPtrMap.addIfNew { entries := [(1, some 5)] } 2 (some 9)).2.1.entries =
        [(1, some 5)] ++ [(2, some 9)] ∧
      (OwnedPtrMap.addIfNew { entries := [(1, some 5)] } 2 (some 9)).2.2 = []) := by
  have h1 := (claim_C10 { entries := [(1, some 5)] } 1 (some 9)).1 (by decide)
  have h2 := (claim_C10 { entries := [(1, some 5)] } 2 (some 9)).2 (by decide)
  exact ⟨⟨by decide, h1.1, h1.2.1, h1.2.2⟩, ⟨by decide, h2.1, h2.2.1, h2.2.2⟩⟩

/-- strongVal reads the strong field of a live block. -/
theorem strongVal_some (w : World) (b : Refcount) (hb : w.block = some b) :
    w.strongVal = b.strong := by
  simp [World.strongVal, hb]

/-- weakVal reads the weak field of a live block. -/
theorem weakVal_some (w : World) (b : Refcount) (hb : w.block = some b) :
    w.weakVal = b.weak := by
  simp [World.weakVal, hb]

/-- Running a concatenation of operation sequences runs them in order. -/
theorem runOps_append (l1 l2 : List ROp) :
    ∀ w : World, World.runOps w (l1 ++ l2) =
      (World.runOps w l1).bind (fun x => World.runOps x l2) := by
  induction l1 with
  | nil =>
    intro w
    rw [List.nil_append, World.runOps, Option.some_bind]
  | cons op l1 ih =>
    intro w
    rw [List.cons_append, World.runOps, World.runOps]
    cases hstep : w.step op with
    | none => rfl
    | some wmid =>
      rw [Option.some_bind, Option.some_bind, ih wmid]

/-- No-stale-copy reachability composes with no-stale-copy continuation. -/
theorem reachableNC_trans (w w2 : World) (h : w.ReachableNC) (h2 : w.ReachFromNC w2) :
    w2.ReachableNC := by
  obtain ⟨ops1, hno1, hrun1⟩ := h
  obtain ⟨ops2, hno2, hrun2⟩ := h2
  refine ⟨ops1 ++ ops2, ?_, ?_⟩
  · intro hmem
    rcases List.mem_append.mp hmem with hm | hm
    · exact hno1 hm
    · exact hno2 hm
  · rw [runOps_append, hrun1, Option.some_bind, hrun2]

/-- The number of released-from handles ever produced never decreases:
every operation preserves or increases nStale + staleDrops. -/
theorem rel_mono_step (w w2 : World) (op : ROp) (hs : w.step op = some w2) :
    w.nStale + w.staleDrops ≤ w2.nStale + w2.staleDrops := by
  cases op with
  | copyLive =>
    cases hb : w.block with
    | none => simp [World.step, hb] at hs
    | some b =>
      simp only [World.step, hb] at hs
      by_cases hc : 1 ≤ w.nLive
      · rw [if_pos hc] at hs
        have hw2 := (Option.some.inj hs).symm
        subst hw2
        dsimp only
        omega
      · rw [if_neg hc] at hs
        exact Option.noConfusion hs
  | dropLive =>
    cases hb : w.block with
    | none => simp [World.step, hb] at hs
    | some b =>
      simp only [World.step, hb] at hs
      by_cases hc : 1 ≤ w.nLive
      · rw [if_pos hc] at hs
        have hw2 := (Option.some.inj hs).symm
        subst hw2
        dsimp only
        omega
      · rw [if_neg hc] at hs
        exact Option.noConfusion hs
  | mkWeak =>
    cases hb : w.block with
    | none => simp [World.step, hb] at hs
    | some b =>
      simp only [World.step, hb] at hs
      by_cases hc : 1 ≤ w.nLive
      · rw [if_pos hc] at hs
        have hw2 := (Option.some.inj hs).symm
        subst hw2
        dsimp only
        omega
      · rw [if_neg hc] at hs
        exact Option.noConfusion hs
  | copyWeak =>
    cases hb : w.block with
    | none => simp [World.step, hb] at hs
    | some b =>
      simp only [World.step, hb] at hs
      by_cases hc : 1 ≤ b.weak
      · rw [if_pos hc] at hs
        have hw2 := (Option.some.inj hs).symm
        subst hw2
        dsimp only
        omega
      · rw [if_neg hc] at hs
        exact Option.noConfusion hs
  | dropWeak =>
    cases hb : w.block with
    | none => simp [World.step, hb] at hs
    | some b =>
      simp only [World.step, hb] at hs
      by_cases hc : 1 ≤ b.weak
      · rw [if_pos hc] at hs
        have hw2 := (Option.some.inj hs).symm
        subst hw2
        dsimp only
        omega
      · rw [if_neg hc] at hs
        exact Option.noConfusion hs
  | upgrade =>
    cases hb : w.block with
    | none => simp [World.step, hb] at hs
    | some b =>
      simp only [World.step, hb] at hs
      by_cases hc : 1 ≤ b.weak
      · rw [if_pos hc] at hs
        have hw2 := (Option.some.inj hs).symm
        subst hw2
        by_cases hl : Refcount.isLive w.block
        · simp only [World.upgradeStep, if_pos hl]
          omega
        · simp only [World.upgradeStep, if_neg hl]
          omega
      · rw [if_neg hc] at hs
        exact Option.noConfusion hs
  | releaseX =>
    cases hb : w.block with
    | none => simp [World.step, hb] at hs
    | some b =>
      simp only [World.step, hb] at hs
      by_cases hc : 1 ≤ w.nLive
      · rw [if_pos hc] at hs
        have hw2 := (Option.some.inj hs).symm
        subst hw2
        by_cases h1s : b.strong = 1
        · simp only [World.releaseStep, hb, if_pos h1s]
          omega
        · simp only [World.releaseStep, hb, if_neg h1s]
          omega
      · rw [if_neg hc] at hs
        exact Option.noConfusion hs
  | copyStale =>
    cases hb : w.block with
    | none => simp [World.step, hb] at hs
    | some b =>
      simp only [World.step, hb] at hs
      by_cases hc : 1 ≤ w.nStale
      · rw [if_pos hc] at hs
        have hw2 := (Option.some.inj hs).symm
        subst hw2
        dsimp only
        omega
      · rw [if_neg hc] at hs
        exact Option.noConfusion hs
  | dropStale =>
    cases hb : w.block with
    | none => simp [World.step, hb] at hs
    | some b =>
      simp only [World.step, hb] at hs
      by_cases hc : 1 ≤ w.nStale
      · rw [if_pos hc] at hs
        have hw2 := (Option.some.inj hs).symm
        subst hw2
        dsimp only
        omega
      · rw [if_neg hc] at hs
        exact Option.noConfusion hs
  | dropZombie =>
    cases hb : w.block with
    | none => simp [World.step, hb] at hs
    | some b =>
      simp only [World.step, hb] at hs
      by_cases hc : 1 ≤ w.nZombie
      · rw [if_pos hc] at hs
        have hw2 := (Option.some.inj hs).symm
        subst hw2
        dsimp only
        omega
      · rw [if_neg hc] at hs
        exact Option.noConfusion hs
  | dropExclusive =>
    simp only [World.step] at hs
    by_cases hex : w.exclusiveHolds
    · rw [if_pos hex] at hs
      have hw2 := (Option.some.inj hs).symm
      subst hw2
      dsimp only
      omega
    · rw [if_neg hex] at hs
      exact Option.noConfusion hs

/-- rel_mono_step extended to whole operation sequences. -/
theorem rel_mono_runOps (ops : List ROp) :
    ∀ w w2 : World, World.runOps w ops = some w2 →
      w.nStale + w.staleDrops ≤ w2.nStale + w2.staleDrops := by
  induction ops with
  | nil =>
    intro w w2 hr
    rw [World.runOps] at hr
    exact (Option.some.inj hr) ▸ Nat.le_refl _
  | cons op ops ih =>
    intro w w2 hr
    rw [World.runOps] at hr
    cases hstep : w.step op with
    | none => rw [hstep] at hr; exact Option.noConfusion hr
    | some wmid =>
      rw [hstep, Option.some_bind] at hr
      exact Nat.le_trans (rel_mono_step w wmid op hstep) (ih wmid w2 hr)

/-- In an invariant world where a release has happened the block is no
longer live: the strong counter is at most zero, so Refcount::isLive is
false. -/
theorem isLive_false_of_released (w : World) (hi : World.InvNC w)
    (hrel : 1 ≤ w.nStale + w.staleDrops) : Refcount.isLive w.block = false := by
  obtain ⟨_, _, h3, _, h5, _, _, _⟩ := hi
  cases hb : w.block with
  | none => rw [Refcount.isLive]
  | some b =>
    have hf := (h5 b hb).1
    have hnl := h3 hrel
    rw [Refcount.isLive]
    simp only [decide_eq_false_iff_not]
    omega

/-- Any operation other than copying a released-from handle preserves the
no-stale-copy invariant. -/
theorem invNC_step (w w2 : World) (op : ROp) (hop : op ≠ ROp.copyStale)
    (hi : World.InvNC w) (hs : w.step op = some w2) : World.InvNC w2 := by
  obtain ⟨h1, h2, h3, h4, h5, h6, h7, h8⟩ := hi
  cases op with
  | copyLive =>
    cases hb : w.block with
    | none => simp [World.step, hb] at hs
    | some b =>
      simp only [World.step, hb] at hs
      by_cases hc : 1 ≤ w.nLive
      · rw [if_pos hc] at hs
        have hb5 := h5 b hb
        have hst0 : w.nStale = 0 ∧ w.staleDrops = 0 := by
          by_cases hr : 1 ≤ w.nStale + w.staleDrops
          · exact absurd (h3 hr) (by omega)
          · omega
        obtain ⟨hst, hsd⟩ := hst0
        have hexf : w.exclusiveHolds = false := by
          cases hwe : w.exclusiveHolds
          · rfl
          · exact absurd (h4 hwe) (by omega)
        have hd := h8 (fun hcon => absurd hcon.1 (by omega))
        have hw2 := (Option.some.inj hs).symm
        subst hw2
        refine ⟨h1, by dsimp only; omega, ?_, ?_, ?_, ?_, ?_, ?_⟩
        · intro hr
          dsimp only at hr
          omega
        · intro hex2
          dsimp only at hex2
          rw [hexf] at hex2
          exact absurd hex2 (by decide)
        · intro b' hb'
          dsimp only at hb'
          injection hb' with hbeq
          subst hbeq
          refine ⟨?_, ?_⟩ <;> dsimp only <;> omega
        · intro hn
          dsimp only at hn
          exact Option.noConfusion hn
        · intro hcon
          dsimp only at hcon
          exact absurd hcon.1 (by omega)
        · intro _
          exact hd
      · rw [if_neg hc] at hs
        exact Option.noConfusion hs
  | dropLive =>
    cases hb : w.block with
    | none => simp [World.step, hb] at hs
    | some b =>
      simp only [World.step, hb] at hs
      by_cases hc : 1 ≤ w.nLive
      · rw [if_pos hc] at hs
        have hb5 := h5 b hb
        have hst0 : w.nStale = 0 ∧ w.staleDrops = 0 := by
          by_cases hr : 1 ≤ w.nStale + w.staleDrops
          · exact absurd (h3 hr) (by omega)
          · omega
        obtain ⟨hst, hsd⟩ := hst0
        have hexf : w.exclusiveHolds = false := by
          cases hwe : w.exclusiveHolds
          · rfl
          · exact absurd (h4 hwe) (by omega)
        have hd := h8 (fun hcon => absurd hcon.1 (by omega))
        have hw2 := (Option.some.inj hs).symm
        by_cases hz : b.strong - 1 = 0
        · have hnl1 : w.nLive = 1 := by omega
          by_cases hwk : b.weak = 0
          · have hclean : w2 =
                { w with block := none, nLive := w.nLive - 1,
                         objAlive := false, objDestroys := w.objDestroys + 1 } := by
              rw [hw2]
              simp [Refcount.decOp, hz, hwk]
            rw [hclean]
            refine ⟨h1, by dsimp only; omega, ?_, ?_, ?_, ?_, ?_, ?_⟩
            · intro _
              dsimp only
              omega
            · intro hex2
              dsimp only at hex2
              rw [hexf] at hex2
              exact absurd hex2 (by decide)
            · intro b' hb'
              dsimp only at hb'
              exact Option.noConfusion hb'
            · intro _
              dsimp only
              omega
            · intro _
              refine ⟨by dsimp only; omega, rfl⟩
            · intro hcon
              exact absurd ⟨by dsimp only; omega, hexf⟩ hcon
          · have hclean : w2 =
                { w with block := some { strong := b.strong - 1, weak := b.weak },
                         nLive := w.nLive - 1,
                         objAlive := false, objDestroys := w.objDestroys + 1 } := by
              rw [hw2]
              simp [Refcount.decOp, hz, hwk]
            rw [hclean]
            refine ⟨h1, by dsimp only; omega, ?_, ?_, ?_, ?_, ?_, ?_⟩
            · intro _
              dsimp only
              omega
            · intro hex2
              dsimp only at hex2
              rw [hexf] at hex2
              exact absurd hex2 (by decide)
            · intro b' hb'
              dsimp only at hb'
              injection hb' with hbeq
              subst hbeq
              refine ⟨?_, ?_⟩ <;> dsimp only <;> omega
            · intro hn
              dsimp only at hn
              exact Option.noConfusion hn
            · intro _
              refine ⟨by dsimp only; omega, rfl⟩
            · intro hcon
              exact absurd ⟨by dsimp only; omega, hexf⟩ hcon
        · have hnl2 : 2 ≤ w.nLive := by omega
          have hclean : w2 =
              { w with block := some { strong := b.strong - 1, weak := b.weak },
                       nLive := w.nLive - 1 } := by
            rw [hw2]
            simp [Refcount.decOp, hz]
          rw [hclean]
          refine ⟨h1, by dsimp only; omega, ?_, ?_, ?_, ?_, ?_, ?_⟩
          · intro hr
            dsimp only at hr
            omega
          · intro hex2
            dsimp only at hex2
            rw [hexf] at hex2
            exact absurd hex2 (by decide)
          · intro b' hb'
            dsimp only at hb'
            injection hb' with hbeq
            subst hbeq
            refine ⟨?_, ?_⟩ <;> dsimp only <;> omega
          · intro hn
            dsimp only at hn
            exact Option.noConfusion hn
          · intro hcon
            dsimp only at hcon
            exact absurd hcon.1 (by omega)
          · intro _
            exact hd
      · rw [if_neg hc] at hs
        exact Option.noConfusion hs
  | mkWeak =>
    cases hb : w.block with
    | none => simp [World.step, hb] at hs
    | some b =>
      simp only [World.step, hb] at hs
      by_cases hc : 1 ≤ w.nLive
      · rw [if_pos hc] at hs
        have hb5 := h5 b hb
        have hw2 := (Option.some.inj hs).symm
        subst hw2
        refine ⟨h1, by dsimp only; omega, ?_, ?_, ?_, ?_, ?_, ?_⟩
        · intro hr
          dsimp only at hr ⊢
          exact h3 hr
        · intro hex2
          dsimp only at hex2 ⊢
          exact h4 hex2
        · intro b' hb'
          dsimp only at hb'
          injection hb' with hbeq
          subst hbeq
          refine ⟨?_, ?_⟩ <;> dsimp only <;> omega
        · intro hn
          dsimp only at hn
          exact Option.noConfusion hn
        · intro hcon
          dsimp only at hcon
          exact h7 hcon
        · intro hcon
          dsimp only at hcon
          exact h8 hcon
      · rw [if_neg hc] at hs
        exact Option.noConfusion hs
  | copyWeak =>
    cases hb : w.block with
    | none => simp [World.step, hb] at hs
    | some b =>
      simp only [World.step, hb] at hs
      by_cases hc : 1 ≤ b.weak
      · rw [if_pos hc] at hs
        have hb5 := h5 b hb
        have hw2 := (Option.some.inj hs).symm
        subst hw2
        refine ⟨h1, by dsimp only; omega, ?_, ?_, ?_, ?_, ?_, ?_⟩
        · intro hr
          dsimp only at hr ⊢
          exact h3 hr
        · intro hex2
          dsimp only at hex2 ⊢
          exact h4 hex2
        · intro b' hb'
          dsimp only at hb'
          injection hb' with hbeq
          subst hbeq
          refine ⟨?_, ?_⟩ <;> dsimp only <;> omega
        · intro hn
          dsimp only at hn
          exact Option.noConfusion hn
        · intro hcon
          dsimp only at hcon
          exact h7 hcon
        · intro hcon
          dsimp only at hcon
          exact h8 hcon
      · rw [if_neg hc] at hs
        exact Option.noConfusion hs
  | dropWeak =>
    cases hb : w.block with
    | none => simp [World.step, hb] at hs
    | some b =>
      simp only [World.step, hb] at hs
      by_cases hc : 1 ≤ b.weak
      · rw [if_pos hc] at hs
        have hb5 := h5 b hb
        have hw2 := (Option.some.inj hs).symm
        by_cases hz : b.weak - 1 = 0 ∧ b.strong = 0
        · have hnl0 : w.nLive = 0 := by
            by_cases hr : 1 ≤ w.nStale + w.staleDrops
            · exact h3 hr
            · have hf := hb5.1
              have hz2 := hz.2
              omega
          have hclean : w2 = { w with block := none } := by
            rw [hw2]
            simp [Refcount.decWeakOp, hz.1, hz.2]
          rw [hclean]
          refine ⟨h1, by dsimp only; omega, ?_, ?_, ?_, ?_, ?_, ?_⟩
          · intro hr
            dsimp only at hr ⊢
            exact h3 hr
          · intro hex2
            dsimp only at hex2 ⊢
            exact h4 hex2
          · intro b' hb'
            dsimp only at hb'
            exact Option.noConfusion hb'
          · intro _
            dsimp only
            exact hnl0
          · intro hcon
            dsimp only at hcon
            exact h7 hcon
          · intro hcon
            dsimp only at hcon
            exact h8 hcon
        · have hclean : w2 =
              { w with block := some { strong := b.strong, weak := b.weak - 1 } } := by
            rw [hw2]
            simp only [Refcount.decWeakOp, if_neg hz]
          rw [hclean]
          refine ⟨h1, by dsimp only; omega, ?_, ?_, ?_, ?_, ?_, ?_⟩
          · intro hr
            dsimp only at hr ⊢
            exact h3 hr
          · intro hex2
            dsimp only at hex2 ⊢
            exact h4 hex2
          · intro b' hb'
            dsimp only at hb'
            injection hb' with hbeq
            subst hbeq
            refine ⟨?_, ?_⟩ <;> dsimp only <;> omega
          · intro hn
            dsimp only at hn
            exact Option.noConfusion hn
          · intro hcon
            dsimp only at hcon
            exact h7 hcon
          · intro hcon
            dsimp only at hcon
            exact h8 hcon
      · rw [if_neg hc] at hs
        exact Option.noConfusion hs
  | upgrade =>
    cases hb : w.block with
    | none => simp [World.step, hb] at hs
    | some b =>
      simp only [World.step, hb] at hs
      by_cases hc : 1 ≤ b.weak
      · rw [if_pos hc] at hs
        have hb5 := h5 b hb
        by_cases hstr : 0 < b.strong
        · have hst0 : w.nStale = 0 ∧ w.staleDrops = 0 := by
            by_cases hr : 1 ≤ w.nStale + w.staleDrops
            · have hn0 := h3 hr
              have hf := hb5.1
              omega
            · omega
          obtain ⟨hst, hsd⟩ := hst0
          have hnl1 : 1 ≤ w.nLive := by
            have hf := hb5.1
            omega
          have hexf : w.exclusiveHolds = false := by
            cases hwe : w.exclusiveHolds
            · rfl
            · exact absurd (h4 hwe) (by omega)
          have hd := h8 (fun hcon => absurd hcon.1 (by omega))
          have hup : (World.upgradeStep w).2 =
              { w with nLive := w.nLive + 1,
                       block := some { strong := b.strong + 1, weak := b.weak } } := by
            simp [World.upgradeStep, Refcount.isLive, hb, hstr]
          rw [hup] at hs
          have hw2 := (Option.some.inj hs).symm
          subst hw2
          refine ⟨h1, by dsimp only; omega, ?_, ?_, ?_, ?_, ?_, ?_⟩
          · intro hr
            dsimp only at hr
            omega
          · intro hex2
            dsimp only at hex2
            rw [hexf] at hex2
            exact absurd hex2 (by decide)
          · intro b' hb'
            dsimp only at hb'
            injection hb' with hbeq
            subst hbeq
            refine ⟨?_, ?_⟩ <;> dsimp only <;> omega
          · intro hn
            dsimp only at hn
            exact Option.noConfusion hn
          · intro hcon
            dsimp only at hcon
            exact absurd hcon.1 (by omega)
          · intro _
            exact hd
        · have hup : (World.upgradeStep w).2 = w := by
            simp [World.upgradeStep, Refcount.isLive, hb, hstr]
          rw [hup] at hs
          have hw2 := (Option.some.inj hs).symm
          subst hw2
          exact ⟨h1, h2, h3, h4, h5, h6, h7, h8⟩
      · rw [if_neg hc] at hs
        exact Option.noConfusion hs
  | releaseX =>
    cases hb : w.block with
    | none => simp [World.step, hb] at hs
    | some b =>
      simp only [World.step, hb] at hs
      by_cases hc : 1 ≤ w.nLive
      · rw [if_pos hc] at hs
        have hb5 := h5 b hb
        have hst0 : w.nStale = 0 ∧ w.staleDrops = 0 := by
          by_cases hr : 1 ≤ w.nStale + w.staleDrops
          · exact absurd (h3 hr) (by omega)
          · omega
        obtain ⟨hst, hsd⟩ := hst0
        have hexf : w.exclusiveHolds = false := by
          cases hwe : w.exclusiveHolds
          · rfl
          · exact absurd (h4 hwe) (by omega)
        have hd := h8 (fun hcon => absurd hcon.1 (by omega))
        have hw2 := (Option.some.inj hs).symm
        by_cases h1s : b.strong = 1
        · have hnl1 : w.nLive = 1 := by
            have hf := hb5.1
            omega
          have hrel : (World.releaseStep w).2 =
              { w with block := (Refcount.decOp b).1,
                       nLive := w.nLive - 1, nStale := w.nStale + 1,
                       exclusiveHolds := true } := by
            simp [World.releaseStep, hb, h1s]
          rw [hrel] at hw2
          by_cases hwk : b.weak = 0
          · have hclean : w2 =
                { w with block := none, nLive := w.nLive - 1,
                         nStale := w.nStale + 1, exclusiveHolds := true } := by
              rw [hw2]
              simp [Refcount.decOp, h1s, hwk]
            rw [hclean]
            refine ⟨h1, by dsimp only; omega, ?_, ?_, ?_, ?_, ?_, ?_⟩
            · intro _
              dsimp only
              omega
            · intro _
              dsimp only
              omega
            · intro b' hb'
              dsimp only at hb'
              exact Option.noConfusion hb'
            · intro _
              dsimp only
              omega
            · intro hcon
              dsimp only at hcon
              exact absurd hcon.2 (by decide)
            · intro _
              exact hd
          · have hclean : w2 =
                { w with block := some { strong := b.strong - 1, weak := b.weak },
                         nLive := w.nLive - 1, nStale := w.nStale + 1,
                         exclusiveHolds := true } := by
              rw [hw2]
              simp [Refcount.decOp, h1s, hwk]
            rw [hclean]
            refine ⟨h1, by dsimp only; omega, ?_, ?_, ?_, ?_, ?_, ?_⟩
            · intro _
              dsimp only
              omega
            · intro _
              dsimp only
              omega
            · intro b' hb'
              dsimp only at hb'
              injection hb' with hbeq
              subst hbeq
              refine ⟨?_, ?_⟩ <;> dsimp only <;> omega
            · intro hn
              dsimp only at hn
              exact Option.noConfusion hn
            · intro hcon
              dsimp only at hcon
              exact absurd hcon.2 (by decide)
            · intro _
              exact hd
        · have hrel2 : (World.releaseStep w).2 = w := by
            simp [World.releaseStep, hb, h1s]
          rw [hrel2] at hw2
          subst hw2
          exact ⟨h1, h2, h3, h4, h5, h6, h7, h8⟩
      · rw [if_neg hc] at hs
        exact Option.noConfusion hs
  | copyStale =>
    exact absurd rfl hop
  | dropStale =>
    cases hb : w.block with
    | none => simp [World.step, hb] at hs
    | some b =>
      simp only [World.step, hb] at hs
      by_cases hc : 1 ≤ w.nStale
      · rw [if_pos hc] at hs
        have hb5 := h5 b hb
        have hr1 : 1 ≤ w.nStale + w.staleDrops := by omega
        have hnl0 := h3 hr1
        have hst1 : w.nStale = 1 ∧ w.staleDrops = 0 := by omega
        have hstrong0 : b.strong = 0 := by
          have hf := hb5.1
          omega
        have hdec : Refcount.decOp b =
            (some { strong := b.strong - 1, weak := b.weak }, false) := by
          simp only [Refcount.decOp, if_neg (show ¬(b.strong - 1 = 0) from by omega)]
        have hw2 := (Option.some.inj hs).symm
        have hclean : w2 =
            { w with block := some { strong := b.strong - 1, weak := b.weak },
                     nStale := w.nStale - 1, staleDrops := w.staleDrops + 1 } := by
          rw [hw2, hdec]
        rw [hclean]
        refine ⟨h1, by dsimp only; omega, ?_, ?_, ?_, ?_, ?_, ?_⟩
        · intro _
          dsimp only
          exact hnl0
        · intro _
          dsimp only
          omega
        · intro b' hb'
          dsimp only at hb'
          injection hb' with hbeq
          subst hbeq
          refine ⟨?_, ?_⟩ <;> dsimp only <;> omega
        · intro hn
          dsimp only at hn
          exact Option.noConfusion hn
        · intro hcon
          dsimp only at hcon
          exact h7 hcon
        · intro hcon
          dsimp only at hcon
          exact h8 hcon
      · rw [if_neg hc] at hs
        exact Option.noConfusion hs
  | dropZombie =>
    cases hb : w.block with
    | none => simp [World.step, hb] at hs
    | some b =>
      simp only [World.step, hb] at hs
      rw [if_neg (by omega)] at hs
      exact Option.noConfusion hs
  | dropExclusive =>
    simp only [World.step] at hs
    by_cases hex : w.exclusiveHolds
    · rw [if_pos hex] at hs
      have hr1 := h4 hex
      have hnl0 := h3 hr1
      have hd := h8 (fun hcon => by rw [hex] at hcon; exact absurd hcon.2 (by decide))
      have hw2 := (Option.some.inj hs).symm
      subst hw2
      refine ⟨h1, by dsimp only; omega, ?_, ?_, ?_, ?_, ?_, ?_⟩
      · intro _
        dsimp only
        exact hnl0
      · intro hex2
        dsimp only at hex2
        exact absurd hex2 (by decide)
      · intro b' hb'
        dsimp only at hb'
        exact h5 b' hb'
      · intro hn
        dsimp only at hn
        exact h6 hn
      · intro _
        refine ⟨by dsimp only; omega, rfl⟩
      · intro hcon
        exact absurd ⟨hnl0, rfl⟩ hcon
    · rw [if_neg hex] at hs
      exact Option.noConfusion hs

/-- The initial shared-ownership world satisfies the no-stale-copy
invariant. -/
theorem invNC_init : World.InvNC World.init := by
  refine ⟨rfl, by decide, ?_, ?_, ?_, ?_, ?_, ?_⟩
  · intro hr
    simp [World.init] at hr
  · intro hex
    simp [World.init] at hex
  · intro b hb
    simp only [World.init, Refcount.initBlock] at hb
    injection hb with hbeq
    subst hbeq
    refine ⟨?_, ?_⟩ <;> dsimp only [World.init] <;> omega
  · intro hn
    simp [World.init] at hn
  · intro hcon
    exact absurd hcon.1 (by simp [World.init])
  · intro _
    exact ⟨rfl, rfl⟩

/-- Running any stale-copy-free operation sequence preserves the
invariant. -/
theorem invNC_runOps (ops : List ROp) :
    ∀ w w2 : World, ROp.copyStale ∉ ops → World.InvNC w →
      World.runOps w ops = some w2 → World.InvNC w2 := by
  induction ops with
  | nil =>
    intro w w2 _ hi hr
    rw [World.runOps] at hr
    exact (Option.some.inj hr) ▸ hi
  | cons op ops ih =>
    intro w w2 hno hi hr
    rw [World.runOps] at hr
    cases hstep : w.step op with
    | none => rw [hstep] at hr; exact Option.noConfusion hr
    | some wmid =>
      rw [hstep, Option.some_bind] at hr
      have hopne : op ≠ ROp.copyStale := fun hc => hno (hc ▸ List.mem_cons_self op ops)
      exact ih wmid w2 (fun hm => hno (List.mem_cons_of_mem op hm))
        (invNC_step w wmid op hopne hi hstep) hr

/-- Every world reachable without copying a released-from handle
satisfies the invariant. -/
theorem invNC_reachable (w : World) (h : w.ReachableNC) : World.InvNC w := by
  obtain ⟨ops, hno, hops⟩ := h
  exact invNC_runOps ops World.init w hno invNC_init hops

/-- C3 fails on the code as stated: SmartPtr::release nulls only ptr,
never refcount (OwnedPtr.h lines 273-282), so the released-from handle
still points at the block; copy-constructing from it runs Refcount::inc,
bringing strong back above zero, after which a weak upgrade SUCCEEDS.
Concretely: share, make a weak reference, release successfully, copy the
released-from handle — the block is live again, so the claim that after a
successful release no upgrade of any weak reference can ever succeed is
false. -/
theorem claim_C3_counterexample :
    ¬ (∀ w : World, w.Reachable → 1 ≤ w.nLive → (w.releaseStep).1 = true →
        ∀ w2, (w.releaseStep).2.ReachFrom w2 → Refcount.isLive w2.block = false) := by
  intro h
  have h2 := h
    { block := some { strong := 1, weak := 1 }, nLive := 1, nZombie := 0, nStale := 0,
      staleDrops := 0, objAlive := true, objDestroys := 0, exclusiveHolds := false }
    ⟨[ROp.mkWeak], by decide⟩ (by decide) (by decide)
    { block := some { strong := 1, weak := 1 }, nLive := 0, nZombie := 1, nStale := 1,
      staleDrops := 0, objAlive := true, objDestroys := 0, exclusiveHolds := true }
    ⟨[ROp.copyStale], by decide⟩
  exact absurd h2 (by decide)

/-- C3 (amended): on a non-empty (object-bearing) shared handle,
release-to-exclusive succeeds iff the strong count is exactly 1 at call
time; on failure it returns false and changes nothing; on success the
object is transferred alive into the exclusive handle and — as long as
the released-from handle, which keeps its internal block pointer, is
never copied — no upgrade of any weak reference to the object can ever
succeed afterwards. -/
theorem claim_C3 (w : World) (hw : w.ReachableNC) (hne : 1 ≤ w.nLive) :
    ((w.releaseStep).1 = true ↔ w.strongVal = 1) ∧
    ((w.releaseStep).1 = false → (w.releaseStep).2 = w) ∧
    ((w.releaseStep).1 = true →
      (w.releaseStep).2.exclusiveHolds = true ∧ (w.releaseStep).2.objAlive = true ∧
      (w.releaseStep).2.objDestroys = 0 ∧
      (∀ w2, (w.releaseStep).2.ReachFromNC w2 → Refcount.isLive w2.block = false)) := by
  have hi := invNC_reachable w hw
  obtain ⟨h1, h2, h3, h4, h5, h6, h7, h8⟩ := hi
  cases hb : w.block with
  | none => exact absurd (h6 hb) (by omega)
  | some b =>
    have hsv := strongVal_some w b hb
    have hd := h8 (fun hcon => absurd hcon.1 (by omega))
    by_cases h1s : b.strong = 1
    · have hrel : w.releaseStep =
          (true, { w with block := (Refcount.decOp b).1,
                          nLive := w.nLive - 1, nStale := w.nStale + 1,
                          exclusiveHolds := true }) := by
        simp [World.releaseStep, hb, h1s]
      rw [hrel]
      refine ⟨⟨fun _ => by rw [hsv, h1s], fun _ => rfl⟩, ?_, ?_⟩
      · intro hcon
        exact absurd hcon (by simp)
      · intro _
        refine ⟨rfl, hd.2, hd.1, ?_⟩
        intro w2 hreach
        have hpost : World.ReachableNC
            { w with block := (Refcount.decOp b).1,
                     nLive := w.nLive - 1, nStale := w.nStale + 1,
                     exclusiveHolds := true } := by
          obtain ⟨ops, hno, hrun⟩ := hw
          refine ⟨ops ++ [ROp.releaseX], ?_, ?_⟩
          · intro hm
            rcases List.mem_append.mp hm with hm1 | hm1
            · exact hno hm1
            · simp at hm1
          · rw [runOps_append, hrun, Option.some_bind]
            have hstep : w.step ROp.releaseX =
                some { w with block := (Refcount.decOp b).1, nLive := w.nLive - 1,
                              nStale := w.nStale + 1, exclusiveHolds := true } := by
              simp only [World.step, hb, if_pos hne, hrel]
            rw [show World.runOps w [ROp.releaseX] =
                (w.step ROp.releaseX).bind (fun x => World.runOps x []) from rfl,
              hstep, Option.some_bind]
            rfl
        have hw2NC : w2.ReachableNC := reachableNC_trans _ w2 hpost hreach
        have hi2 := invNC_reachable w2 hw2NC
        obtain ⟨ops2, _, hrun2⟩ := hreach
        have hmono := rel_mono_runOps ops2 _ w2 hrun2
        refine isLive_false_of_released w2 hi2 ?_
        dsimp only at hmono
        omega
    · have hrel : w.releaseStep = (false, w) := by
        simp [World.releaseStep, hb, h1s]
      rw [hrel]
      refine ⟨⟨fun hcon => absurd hcon (by simp), fun hcon => ?_⟩, fun _ => rfl, ?_⟩
      · rw [hsv] at hcon
        exact absurd hcon h1s
      · intro hcon
        exact absurd hcon (by simp)

/-- Witness for C3 at the freshly shared world: the sole object-bearing
holder releases successfully. -/
theorem claim_C3_witness :
    World.init.ReachableNC ∧ 1 ≤ World.init.nLive ∧
    (((World.init.releaseStep).1 = true ↔ World.init.strongVal = 1) ∧
    ((World.init.releaseStep).1 = false → (World.init.releaseStep).2 = World.init) ∧
    ((World.init.releaseStep).1 = true →
      (World.init.releaseStep).2.exclusiveHolds = true ∧
      (World.init.releaseStep).2.objAlive = true ∧
      (World.init.releaseStep).2.objDestroys = 0 ∧
      (∀ w2, (World.init.releaseStep).2.ReachFromNC w2 →
        Refcount.isLive w2.block = false))) := by
  have hr : World.init.ReachableNC := ⟨[], by decide, rfl⟩
  exact ⟨hr, by decide, claim_C3 World.init hr (by decide)⟩

/-- C4 fails on the code as stated, in two ways.  First, a successful
release-to-exclusive runs Refcount::dec (strong transitions to zero) yet
the object is NOT destroyed — it is transferred.  Second, the object can
be destroyed TWICE: after a release, copying the released-from handle
(whose refcount pointer the source never clears) resurrects the strong
count, a weak upgrade then succeeds and hands out a second object-bearing
handle, whose destructor deletes the object the exclusive OwnedPtr still
owns; dropping that OwnedPtr deletes it again. -/
theorem claim_C4_counterexample :
    (¬ (∀ w : World, w.Reachable → w.objDestroys ≤ 1)) ∧
    (¬ (∀ w : World, w.Reachable → (w.strongVal = 0 → w.objDestroys = 1))) := by
  constructor
  · intro h
    have h2 := h
      { block := some { strong := 0, weak := 1 }, nLive := 0, nZombie := 0, nStale := 1,
        staleDrops := 0, objAlive := false, objDestroys := 2, exclusiveHolds := false }
      ⟨[ROp.mkWeak, ROp.releaseX, ROp.copyStale, ROp.upgrade, ROp.dropZombie,
        ROp.dropLive, ROp.dropExclusive], by decide⟩
    exact absurd h2 (by decide)
  · intro h
    have h2 := h
      { block := none, nLive := 0, nZombie := 0, nStale := 1, staleDrops := 0,
        objAlive := true, objDestroys := 0, exclusiveHolds := true }
      ⟨[ROp.releaseX], by decide⟩ (by decide)
    exact absurd h2 (by decide)

/-- C4 (amended): over every sequence of shared-handle and weak-reference
operations in which no released-from handle is copied, the object is
destroyed at most once, and exactly once precisely when no object-bearing
strong handle remains and no exclusive handle holds the transferred
object: a successful release-to-exclusive brings the strong counter to
zero with the object transferred un-destroyed (the released-from handle's
own destructor can later drive the counter to -1), and the object is
destroyed exactly once when the exclusive handle drops; while an
object-bearing handle or the exclusive transfer exists, the object is
alive and undestroyed.  Copying a released-from handle voids at-most-once.
The refcount block is destroyed only at a step where both of its counters
reach zero: any freeing step consumes the block's very last count. -/
theorem claim_C4 (w : World) (hw : w.ReachableNC) :
    w.objDestroys ≤ 1 ∧
    (w.objDestroys = 1 ↔ (w.nLive = 0 ∧ w.exclusiveHolds = false)) ∧
    (0 < w.nLive → w.objAlive = true ∧ w.objDestroys = 0) ∧
    (w.exclusiveHolds = true → w.objAlive = true ∧ w.objDestroys = 0) ∧
    (∀ op w2 b, w.step op = some w2 → w.block = some b → w2.block = none →
      b.strong + b.weak = 1) := by
  have hi := invNC_reachable w hw
  obtain ⟨h1, h2, h3, h4, h5, h6, h7, h8⟩ := hi
  refine ⟨?_, ?_, ?_, ?_, ?_⟩
  · by_cases hcon : w.nLive = 0 ∧ w.exclusiveHolds = false
    · exact le_of_eq (h7 hcon).1
    · have := (h8 hcon).1
      omega
  · constructor
    · intro hd1
      by_cases hcon : w.nLive = 0 ∧ w.exclusiveHolds = false
      · exact hcon
      · have := (h8 hcon).1
        omega
    · intro hcon
      exact (h7 hcon).1
  · intro hpos
    have hcon : ¬(w.nLive = 0 ∧ w.exclusiveHolds = false) :=
      fun hc => absurd hc.1 (by omega)
    exact ⟨(h8 hcon).2, (h8 hcon).1⟩
  · intro hex
    have hcon : ¬(w.nLive = 0 ∧ w.exclusiveHolds = false) := by
      intro hc
      rw [hex] at hc
      exact absurd hc.2 (by decide)
    exact ⟨(h8 hcon).2, (h8 hcon).1⟩
  · intro op w2 b hstep hb hnone
    cases op with
    | copyLive =>
      simp only [World.step, hb] at hstep
      by_cases hc : 1 ≤ w.nLive
      · rw [if_pos hc] at hstep
        have hw2 := (Option.some.inj hstep).symm
        subst hw2
        dsimp only at hnone
        exact Option.noConfusion hnone
      · rw [if_neg hc] at hstep
        exact Option.noConfusion hstep
    | dropLive =>
      simp only [World.step, hb] at hstep
      by_cases hc : 1 ≤ w.nLive
      · rw [if_pos hc] at hstep
        have hw2 := (Option.some.inj hstep).symm
        subst hw2
        dsimp only at hnone
        simp only [Refcount.decOp] at hnone
        by_cases hz : b.strong - 1 = 0
        · rw [if_pos hz] at hnone
          by_cases hwk : b.weak = 0
          · omega
          · rw [if_neg hwk] at hnone
            dsimp only at hnone
            exact Option.noConfusion hnone
        · rw [if_neg hz] at hnone
          dsimp only at hnone
          exact Option.noConfusion hnone
      · rw [if_neg hc] at hstep
        exact Option.noConfusion hstep
    | mkWeak =>
      simp only [World.step, hb] at hstep
      by_cases hc : 1 ≤ w.nLive
      · rw [if_pos hc] at hstep
        have hw2 := (Option.some.inj hstep).symm
        subst hw2
        dsimp only at hnone
        exact Option.noConfusion hnone
      · rw [if_neg hc] at hstep
        exact Option.noConfusion hstep
    | copyWeak =>
      simp only [World.step, hb] at hstep
      by_cases hc : 1 ≤ b.weak
      · rw [if_pos hc] at hstep
        have hw2 := (Option.some.inj hstep).symm
        subst hw2
        dsimp only at hnone
        exact Option.noConfusion hnone
      · rw [if_neg hc] at hstep
        exact Option.noConfusion hstep
    | dropWeak =>
      simp only [World.step, hb] at hstep
      by_cases hc : 1 ≤ b.weak
      · rw [if_pos hc] at hstep
        have hw2 := (Option.some.inj hstep).symm
        subst hw2
        dsimp only at hnone
        simp only [Refcount.decWeakOp] at hnone
        by_cases hz : b.weak - 1 = 0 ∧ b.strong = 0
        · omega
        · rw [if_neg hz] at hnone
          exact Option.noConfusion hnone
      · rw [if_neg hc] at hstep
        exact Option.noConfusion hstep
    | upgrade =>
      simp only [World.step, hb] at hstep
      by_cases hc : 1 ≤ b.weak
      · rw [if_pos hc] at hstep
        by_cases hstr : 0 < b.strong
        · have hup : (World.upgradeStep w).2 =
              { w with nLive := w.nLive + 1,
                       block := some { strong := b.strong + 1, weak := b.weak } } := by
            simp [World.upgradeStep, Refcount.isLive, hb, hstr]
          rw [hup] at hstep
          have hw2 := (Option.some.inj hstep).symm
          subst hw2
          dsimp only at hnone
          exact Option.noConfusion hnone
        · have hup : (World.upgradeStep w).2 = w := by
            simp [World.upgradeStep, Refcount.isLive, hb, hstr]
          rw [hup] at hstep
          have hw2 := (Option.some.inj hstep).symm
          subst hw2
          rw [hb] at hnone
          exact Option.noConfusion hnone
      · rw [if_neg hc] at hstep
        exact Option.noConfusion hstep
    | releaseX =>
      simp only [World.step, hb] at hstep
      by_cases hc : 1 ≤ w.nLive
      · rw [if_pos hc] at hstep
        by_cases h1s : b.strong = 1
        · have hrel : (World.releaseStep w).2 =
              { w with block := (Refcount.decOp b).1,
                       nLive := w.nLive - 1, nStale := w.nStale + 1,
                       exclusiveHolds := true } := by
            simp [World.releaseStep, hb, h1s]
          rw [hrel] at hstep
          have hw2 := (Option.some.inj hstep).symm
          subst hw2
          dsimp only at hnone
          simp only [Refcount.decOp] at hnone
          by_cases hz : b.strong - 1 = 0
          · rw [if_pos hz] at hnone
            by_cases hwk : b.weak = 0
            · omega
            · rw [if_neg hwk] at hnone
              dsimp only at hnone
              exact Option.noConfusion hnone
          · rw [if_neg hz] at hnone
            dsimp only at hnone
            exact Option.noConfusion hnone
        · have hrel2 : (World.releaseStep w).2 = w := by
            simp [World.releaseStep, hb, h1s]
          rw [hrel2] at hstep
          have hw2 := (Option.some.inj hstep).symm
          subst hw2
          rw [hb] at hnone
          exact Option.noConfusion hnone
      · rw [if_neg hc] at hstep
        exact Option.noConfusion hstep
    | copyStale =>
      simp only [World.step, hb] at hstep
      by_cases hc : 1 ≤ w.nStale
      · rw [if_pos hc] at hstep
        have hw2 := (Option.some.inj hstep).symm
        subst hw2
        dsimp only at hnone
        exact Option.noConfusion hnone
      · rw [if_neg hc] at hstep
        exact Option.noConfusion hstep
    | dropStale =>
      simp only [World.step, hb] at hstep
      by_cases hc : 1 ≤ w.nStale
      · rw [if_pos hc] at hstep
        have hw2 := (Option.some.inj hstep).symm
        subst hw2
        dsimp only at hnone
        simp only [Refcount.decOp] at hnone
        by_cases hz : b.strong - 1 = 0
        · rw [if_pos hz] at hnone
          by_cases hwk : b.weak = 0
          · omega
          · rw [if_neg hwk] at hnone
            dsimp only at hnone
            exact Option.noConfusion hnone
        · rw [if_neg hz] at hnone
          dsimp only at hnone
          exact Option.noConfusion hnone
      · rw [if_neg hc] at hstep
        exact Option.noConfusion hstep
    | dropZombie =>
      simp only [World.step, hb] at hstep
      by_cases hc : 1 ≤ w.nZombie
      · rw [if_pos hc] at hstep
        have hw2 := (Option.some.inj hstep).symm
        subst hw2
        dsimp only at hnone
        simp only [Refcount.decOp] at hnone
        by_cases hz : b.strong - 1 = 0
        · rw [if_pos hz] at hnone
          by_cases hwk : b.weak = 0
          · omega
          · rw [if_neg hwk] at hnone
            dsimp only at hnone
            exact Option.noConfusion hnone
        · rw [if_neg hz] at hnone
          dsimp only at hnone
          exact Option.noConfusion hnone
      · rw [if_neg hc] at hstep
        exact Option.noConfusion hstep
    | dropExclusive =>
      simp only [World.step] at hstep
      by_cases hex : w.exclusiveHolds
      · rw [if_pos hex] at hstep
        have hw2 := (Option.some.inj hstep).symm
        subst hw2
        dsimp only at hnone
        rw [hb] at hnone
        exact Option.noConfusion hnone
      · rw [if_neg hex] at hstep
        exact Option.noConfusion hstep

/-- Witness for C4 at the freshly shared world. -/
theorem claim_C4_witness :
    World.init.ReachableNC ∧
    (World.init.objDestroys ≤ 1 ∧
    (World.init.objDestroys = 1 ↔
      (World.init.nLive = 0 ∧ World.init.exclusiveHolds = false)) ∧
    (0 < World.init.nLive → World.init.objAlive = true ∧ World.init.objDestroys = 0) ∧
    (World.init.exclusiveHolds = true →
      World.init.objAlive = true ∧ World.init.objDestroys = 0) ∧
    (∀ op w2 b, World.init.step op = some w2 → World.init.block = some b →
      w2.block = none → b.strong + b.weak = 1)) := by
  have hr : World.init.ReachableNC := ⟨[], by decide, rfl⟩
  exact ⟨hr, claim_C4 World.init hr⟩

/-- C6 fails on the code as stated: copying a released-from handle
resurrects the strong count after the object has been destroyed, so a
weak upgrade can succeed — strong is positive — while the object is
already dead: the upgrade does not yield a handle to the LIVE object.
Concretely: share, make a weak reference, release to an OwnedPtr, copy
the released-from handle, drop the OwnedPtr (destroying the object);
the upgrade now succeeds with the object destroyed. -/
theorem claim_C6_counterexample :
    ¬ (∀ w : World, w.Reachable → 1 ≤ w.weakVal →
        ((w.upgradeStep).1 = true → w.objAlive = true)) := by
  intro h
  have h2 := h
    { block := some { strong := 1, weak := 1 }, nLive := 0, nZombie := 1, nStale := 1,
      staleDrops := 0, objAlive := false, objDestroys := 1, exclusiveHolds := false }
    ⟨[ROp.mkWeak, ROp.releaseX, ROp.copyStale, ROp.dropExclusive], by decide⟩
    (by decide) (by decide)
  exact absurd h2 (by decide)

/-- C6 (amended): upgrading a weak reference yields a non-empty handle
iff the strong counter is positive at the moment of upgrade, and a
successful upgrade increments the strong counter and hands out one more
object-bearing handle; when every strong count has dropped, or the weak
reference is empty (NULL refcount), the upgrade yields an empty handle
and changes nothing.  The handle references the LIVE object only under
the discipline in which no released-from handle is copied; outside it an
upgrade can succeed after the object has been destroyed. -/
theorem claim_C6 (w : World) (_hw : w.Reachable) (hweak : 1 ≤ w.weakVal) :
    ((w.upgradeStep).1 = true ↔ 0 < w.strongVal) ∧
    ((w.upgradeStep).1 = true →
      (w.upgradeStep).2.strongVal = w.strongVal + 1 ∧
      (w.upgradeStep).2.nLive = w.nLive + 1) ∧
    ((w.upgradeStep).1 = false → (w.upgradeStep).2 = w) ∧
    Refcount.isLive none = false ∧
    (w.ReachableNC → (w.upgradeStep).1 = true →
      w.objAlive = true ∧ (w.upgradeStep).2.objAlive = true) := by
  cases hb : w.block with
  | none =>
    have hz : w.weakVal = 0 := by simp [World.weakVal, hb]
    omega
  | some b =>
    have hsv := strongVal_some w b hb
    by_cases hstr : 0 < b.strong
    · have hup : w.upgradeStep =
          (true, { w with nLive := w.nLive + 1,
                          block := some { strong := b.strong + 1, weak := b.weak } }) := by
        simp [World.upgradeStep, Refcount.isLive, hb, hstr]
      rw [hup]
      refine ⟨⟨fun _ => by rw [hsv]; omega, fun _ => rfl⟩, ?_, ?_, rfl, ?_⟩
      · intro _
        refine ⟨?_, rfl⟩
        rw [hsv]
        simp only [World.strongVal]
      · intro hcon
        exact absurd hcon (by simp)
      · intro hnc _
        have hi := invNC_reachable w hnc
        obtain ⟨h1, h2, h3, h4, h5, h6, h7, h8⟩ := hi
        have hb5 := h5 b hb
        have hnl1 : 1 ≤ w.nLive := by
          by_cases hr : 1 ≤ w.nStale + w.staleDrops
          · have := h3 hr
            have hf := hb5.1
            omega
          · have hf := hb5.1
            omega
        have hd := h8 (fun hcon => absurd hcon.1 (by omega))
        exact ⟨hd.2, hd.2⟩
    · have hup : w.upgradeStep = (false, w) := by
        simp [World.upgradeStep, Refcount.isLive, hb, hstr]
      rw [hup]
      refine ⟨⟨fun hcon => absurd hcon (by simp), fun hcon => ?_⟩, ?_, fun _ => rfl, rfl, ?_⟩
      · rw [hsv] at hcon
        exact absurd hcon hstr
      · intro hcon
        exact absurd hcon (by simp)
      · intro _ hcon
        exact absurd hcon (by simp)

/-- Witness for C6 at the world with one object-bearing handle and one
weak reference. -/
theorem claim_C6_witness :
    World.afterMkWeak.Reachable ∧ 1 ≤ World.afterMkWeak.weakVal ∧
    (((World.afterMkWeak.upgradeStep).1 = true ↔ 0 < World.afterMkWeak.strongVal) ∧
    ((World.afterMkWeak.upgradeStep).1 = true →
      (World.afterMkWeak.upgradeStep).2.strongVal = World.afterMkWeak.strongVal + 1 ∧
      (World.afterMkWeak.upgradeStep).2.nLive = World.afterMkWeak.nLive + 1) ∧
    ((World.afterMkWeak.upgradeStep).1 = false →
      (World.afterMkWeak.upgradeStep).2 = World.afterMkWeak) ∧
    Refcount.isLive none = false ∧
    (World.afterMkWeak.ReachableNC → (World.afterMkWeak.upgradeStep).1 = true →
      World.afterMkWeak.objAlive = true ∧
      (World.afterMkWeak.upgradeStep).2.objAlive = true)) := by
  have hr : World.afterMkWeak.Reachable := ⟨[ROp.mkWeak], by decide⟩
  exact ⟨hr, by decide, claim_C6 World.afterMkWeak hr (by decide)⟩
